import Mathlib

/-!
Verification development for a TypeScript Paillier cryptosystem repository.

The repository contains two implementations of the same scheme:
* a web-worker variant (`part_000`, lines 1-283): `randomBigInt`, `modPow`,
  `isProbPrime`, `generatePrime`, `generatePaillier` (with `g = n + 1`),
  `encrypt`, `decrypt`, `homomorphicAdd`, `homomorphicScalarMul`, `modInv`;
* a Node library variant (`part_000`, lines 284-601): `modPow` (with an
  explicit `mod = 1` early return), `egcd`/`modInv`, `encrypt`, `decrypt`,
  the homomorphic operations and the serialization helpers;
plus a wrapper module (`part_001`) with its own serialization helpers.

JavaScript `BigInt` arithmetic is embedded as follows: values that are
non-negative at every call site are modelled as `ℕ` (JS `/` and `%` agree
with `Nat` division/mod on non-negative operands); values that can be
negative (the extended-Euclid coefficients, `decrypt`'s intermediate
product with `mu`) are modelled as `ℤ`, using `Int.tdiv`/`Int.tmod`,
which are truncated division/remainder exactly like JS `BigInt` `/`, `%`.
Randomness is factored out: each random draw becomes an explicit argument
(or a list of draws for a retry loop), so "for every randomness stream"
becomes a universal quantifier and "some randomness stream" an existential.
-/

namespace Paillier

/-- `bitLength` (worker, lines 20-23): `n.toString(2).length`, with `0 ↦ 0`.
`Nat.size` is exactly that: `0` for `0`, and `⌊log₂ n⌋ + 1` otherwise. -/
def bitLength (n : ℕ) : ℕ := Nat.size n

/-- Common loop body of both `modPow` implementations (worker lines 68-78,
library lines 306-317): `while (exp > 0) { if (exp & 1) result = result*base % mod;
base = base*base % mod; exp >>= 1 }` (the library orders the `base` and `exp`
updates differently, but they are independent assignments). -/
def modPowLoop (result base e m : ℕ) : ℕ :=
  if e = 0 then result
  else modPowLoop (if e % 2 = 1 then result * base % m else result) (base * base % m) (e / 2) m
termination_by e
decreasing_by exact Nat.div_lt_self (Nat.pos_of_ne_zero (by assumption)) one_lt_two

/-- Worker `modPow` (lines 68-78): reduces the base first, no special case
for `mod = 1`, initial `result = 1`. -/
def workerModPow (base e m : ℕ) : ℕ := modPowLoop 1 (base % m) e m

/-- Library `modPow` (lines 306-317): `if (mod === 1n) return 0n`, then the
same square-and-multiply loop.  (For `mod = 0` JS would throw on `base % 0n`;
no call site uses a zero modulus.) -/
def libModPow (base e m : ℕ) : ℕ := if m = 1 then 0 else modPowLoop 1 (base % m) e m

theorem modPowLoop_zero (r b m : ℕ) : modPowLoop r b 0 m = r := by
  rw [modPowLoop]; simp

theorem modPowLoop_ne (r b e m : ℕ) (h : ¬ e = 0) :
    modPowLoop r b e m =
      modPowLoop (if e % 2 = 1 then r * b % m else r) (b * b % m) (e / 2) m := by
  rw [modPowLoop]; simp [h]

/-- Correctness of the square-and-multiply loop for any positive modulus,
assuming the accumulator and base are already reduced. -/
theorem modPowLoop_correct (m : ℕ) (hm : 0 < m) :
    ∀ e r b, r < m → b < m → modPowLoop r b e m = r * b ^ e % m := by
  intro e
  induction e using Nat.strong_induction_on with
  | _ e ih =>
    intro r b hr hb
    by_cases h0 : e = 0
    · subst h0; rw [modPowLoop_zero]; simp [Nat.mod_eq_of_lt hr]
    · rw [modPowLoop_ne _ _ _ _ h0]
      have hrec := ih (e / 2) (Nat.div_lt_self (Nat.pos_of_ne_zero h0) one_lt_two)
      have hb2 : b * b % m < m := Nat.mod_lt _ hm
      rcases Nat.mod_two_eq_zero_or_one e with hpar | hpar
      · rw [if_neg (by omega)]
        rw [hrec r _ hr hb2]
        have hcong : r * (b * b % m) ^ (e / 2) ≡ r * b ^ e [MOD m] := by
          have hsq : (b * b) ^ (e / 2) = b ^ e := by
            rw [← pow_two, ← pow_mul]; congr 1; omega
          calc r * (b * b % m) ^ (e / 2)
              ≡ r * (b * b) ^ (e / 2) [MOD m] :=
                (Nat.ModEq.refl r).mul ((Nat.mod_modEq (b * b) m).pow (e / 2))
            _ = r * b ^ e := by rw [hsq]
        exact hcong
      · rw [if_pos hpar]
        have hrb : r * b % m < m := Nat.mod_lt _ hm
        rw [hrec _ _ hrb hb2]
        have hcong : (r * b % m) * (b * b % m) ^ (e / 2) ≡ r * b ^ e [MOD m] := by
          have hsq : b * (b * b) ^ (e / 2) = b ^ e := by
            rw [← pow_two, ← pow_mul, ← pow_succ']; congr 1; omega
          calc (r * b % m) * (b * b % m) ^ (e / 2)
              ≡ (r * b) * (b * b) ^ (e / 2) [MOD m] :=
                (Nat.mod_modEq (r * b) m).mul ((Nat.mod_modEq (b * b) m).pow (e / 2))
            _ = r * b ^ e := by rw [mul_assoc, hsq]
        exact hcong

/-- Worker `modPow` computes `base ^ e % m` for every modulus `m > 1`. -/
theorem workerModPow_eq (b e m : ℕ) (hm : 1 < m) : workerModPow b e m = b ^ e % m := by
  unfold workerModPow
  rw [modPowLoop_correct m (by omega) e 1 (b % m) hm (Nat.mod_lt _ (by omega))]
  rw [one_mul, ← Nat.pow_mod]

/-- Library `modPow` computes `base ^ e % m` for every modulus `m > 1`. -/
theorem libModPow_eq (b e m : ℕ) (hm : 1 < m) : libModPow b e m = b ^ e % m := by
  unfold libModPow
  rw [if_neg (by omega)]
  rw [modPowLoop_correct m (by omega) e 1 (b % m) hm (Nat.mod_lt _ (by omega))]
  rw [one_mul, ← Nat.pow_mod]

/-- With modulus 1 the loop maps every positive exponent to 0 once the
accumulator is 0 (every `% 1` is 0). -/
theorem modPowLoop_one_zero : ∀ e b, modPowLoop 0 b e 1 = 0 := by
  intro e
  induction e using Nat.strong_induction_on with
  | _ e ih =>
    intro b
    by_cases h0 : e = 0
    · subst h0; exact modPowLoop_zero 0 b 1
    · rw [modPowLoop_ne _ _ _ _ h0]
      have := ih (e / 2) (Nat.div_lt_self (Nat.pos_of_ne_zero h0) one_lt_two) (b * b % 1)
      rcases Nat.mod_two_eq_zero_or_one e with hpar | hpar
      · rw [if_neg (by omega)]; exact this
      · rw [if_pos hpar, Nat.mod_one]; exact this

theorem modPowLoop_one : ∀ e, e ≠ 0 → ∀ r, modPowLoop r 0 e 1 = 0 := by
  intro e
  induction e using Nat.strong_induction_on with
  | _ e ih =>
    intro he r
    rw [modPowLoop_ne _ _ _ _ he]
    rcases Nat.mod_two_eq_zero_or_one e with hpar | hpar
    · rw [if_neg (by omega)]
      have h2 : e / 2 ≠ 0 := by omega
      have := ih (e / 2) (Nat.div_lt_self (Nat.pos_of_ne_zero he) one_lt_two) h2 r
      simpa using this
    · rw [if_pos hpar]
      have hall : ∀ k, modPowLoop 0 0 k 1 = 0 := by
        intro k
        by_cases hk : k = 0
        · rw [hk, modPowLoop_zero]
        · exact modPowLoop_one_zero k 0
      simpa using hall (e / 2)

/-- Worker `modPow` with modulus 1: returns 1 for exponent 0 (the initial
accumulator is returned unreduced), 0 for positive exponents. -/
theorem workerModPow_one (b e : ℕ) :
    workerModPow b e 1 = if e = 0 then 1 else 0 := by
  unfold workerModPow
  by_cases h0 : e = 0
  · subst h0; rw [modPowLoop_zero, if_pos rfl]
  · rw [if_neg h0, Nat.mod_one]
    exact modPowLoop_one e h0 1

/-- Library `modPow` with modulus 1 always returns 0. -/
theorem libModPow_one (b e : ℕ) : libModPow b e 1 = 0 := by
  unfold libModPow; rw [if_pos rfl]

/-- Worker `gcd` (lines 126-128): `b === 0 ? a : gcd(b, a % b)`.  All call
sites pass non-negative values. -/
def gcdW (a b : ℕ) : ℕ :=
  if b = 0 then a else gcdW b (a % b)
termination_by b
decreasing_by exact Nat.mod_lt _ (Nat.pos_of_ne_zero (by assumption))

theorem gcdW_eq (a b : ℕ) : gcdW a b = Nat.gcd a b := by
  induction b using Nat.strong_induction_on generalizing a with
  | _ b ih =>
    rw [gcdW]
    by_cases hb : b = 0
    · simp [hb]
    · rw [if_neg hb, ih (a % b) (Nat.mod_lt _ (Nat.pos_of_ne_zero hb)) b]
      rw [Nat.gcd_comm b (a % b), ← Nat.gcd_rec b a, Nat.gcd_comm b a]

/-- Worker `lcm` (lines 122-124): `(a * b) / gcd(a, b)`. -/
def lcmW (a b : ℕ) : ℕ := a * b / gcdW a b

theorem lcmW_eq (a b : ℕ) : lcmW a b = Nat.lcm a b := by
  rw [lcmW, gcdW_eq]; rfl

/-- `L(u, n) = (u - 1n) / n` (worker lines 130-132, library lines 421-423).
JS uses signed truncated division; for `u ≥ 1`, `n ≥ 1` (every reachable
call: `u` is a value `≡ 1 mod n` in `[1, n²)`) this agrees with `ℕ`
subtraction and division.  (For `u = 0` JS yields `trunc(-1/n) = 0 = (0-1)/n`
in `ℕ` whenever `n ≥ 2`.) -/
def L (u n : ℕ) : ℕ := (u - 1) / n

/-- Loop of the worker `modInv` (lines 134-147), extended Euclid:
`while (a > 1n) { q = a / m; [a, m] = [m, a % m]; [x0, x1] = [x1 - q*x0, x0] }`.
`a`, `m` stay non-negative (`ℕ`), the Bezout coefficients may go negative
(`ℤ`).  When `m = 0` and `a > 1` the JS computation `a / m` throws a
division-by-zero `RangeError`, modelled as `none`. -/
def workerModInvLoop (a m : ℕ) (x0 x1 : ℤ) : Option ℤ :=
  if 1 < a then
    if m = 0 then none
    else workerModInvLoop m (a % m) (x1 - (a / m : ℕ) * x0) x0
  else some x1
termination_by m
decreasing_by exact Nat.mod_lt _ (Nat.pos_of_ne_zero (by assumption))

/-- Worker `modInv` (lines 134-147): runs the loop from `(x0, x1) = (0, 1)`
and adds `m` to a negative result. -/
def workerModInv (a m : ℕ) : Option ℤ :=
  (workerModInvLoop a m 0 1).map (fun x1 => if x1 < 0 then x1 + m else x1)

theorem workerModInvLoop_gt (a m : ℕ) (x0 x1 : ℤ) (h : 1 < a) (hm : m ≠ 0) :
    workerModInvLoop a m x0 x1 =
      workerModInvLoop m (a % m) (x1 - (a / m : ℕ) * x0) x0 := by
  rw [workerModInvLoop]; simp [h, hm]

theorem workerModInvLoop_le (a m : ℕ) (x0 x1 : ℤ) (h : ¬ 1 < a) :
    workerModInvLoop a m x0 x1 = some x1 := by
  rw [workerModInvLoop]; simp [h]

theorem workerModInvLoop_gt_zero (a : ℕ) (x0 x1 : ℤ) (h : 1 < a) :
    workerModInvLoop a 0 x0 x1 = none := by
  rw [workerModInvLoop]; simp [h]

/-- The loop succeeds exactly when the gcd of its (positive) first argument
and its second argument is 1: on a common factor `g ≥ 2` the Euclid chain
ends at `(g, 0)` and the next `a / m` divides by zero. -/
theorem workerModInvLoop_isSome_iff :
    ∀ m a (x0 x1 : ℤ), 1 ≤ a →
      ((workerModInvLoop a m x0 x1).isSome ↔ Nat.gcd a m = 1) := by
  intro m
  induction m using Nat.strong_induction_on with
  | _ m ih =>
    intro a x0 x1 ha
    by_cases h : 1 < a
    · by_cases hm : m = 0
      · subst hm
        rw [workerModInvLoop_gt_zero a x0 x1 h, Nat.gcd_zero_right]
        simp only [Option.isSome_none, Bool.false_eq_true, false_iff]
        omega
      · rw [workerModInvLoop_gt a m x0 x1 h hm]
        rw [ih (a % m) (Nat.mod_lt _ (Nat.pos_of_ne_zero hm)) m _ _
          (Nat.pos_of_ne_zero hm)]
        rw [Nat.gcd_comm a m, Nat.gcd_rec m a]
        rw [Nat.gcd_comm]
    · have ha1 : a = 1 := by omega
      subst ha1
      rw [workerModInvLoop_le 1 m x0 x1 h]
      simp [Nat.gcd_one_left]

/-- Invariant of the extended-Euclid loop: if on entry
`a ≡ x1·a₀` and `m ≡ x0·a₀ (mod m₀)` and the gcd is 1, the returned
coefficient multiplies `a₀` to `1 modulo m₀`. -/
theorem workerModInvLoop_inv (m0 a0 : ℕ) :
    ∀ m a (x0 x1 : ℤ) (v : ℤ), 1 ≤ a → Nat.gcd a m = 1 →
      (a : ℤ) ≡ x1 * a0 [ZMOD m0] → (m : ℤ) ≡ x0 * a0 [ZMOD m0] →
      workerModInvLoop a m x0 x1 = some v →
      (v * a0) ≡ 1 [ZMOD m0] := by
  intro m
  induction m using Nat.strong_induction_on with
  | _ m ih =>
    intro a x0 x1 v ha hgcd hinva hinvm hrun
    by_cases h : 1 < a
    · by_cases hm : m = 0
      · subst hm
        rw [workerModInvLoop_gt_zero a x0 x1 h] at hrun
        exact absurd hrun (by simp)
      · rw [workerModInvLoop_gt a m x0 x1 h hm] at hrun
        have hgcd' : Nat.gcd m (a % m) = 1 := by
          rw [Nat.gcd_comm m, ← Nat.gcd_rec m a, ← Nat.gcd_comm a m]
          exact hgcd
        have hmod : ((a % m : ℕ) : ℤ) = (a : ℤ) - ((a / m : ℕ) : ℤ) * m := by
          have h := Nat.div_add_mod a m
          have h2 : ((a / m : ℕ) : ℤ) * m = (m : ℤ) * ((a / m : ℕ) : ℤ) := by ring
          rw [h2]
          omega
        have hinvm' : ((a % m : ℕ) : ℤ) ≡ (x1 - (a / m : ℕ) * x0) * a0 [ZMOD m0] := by
          rw [hmod]
          calc (a : ℤ) - ((a / m : ℕ) : ℤ) * m
              ≡ x1 * a0 - ((a / m : ℕ) : ℤ) * (x0 * a0) [ZMOD m0] :=
                hinva.sub (Int.ModEq.mul_left _ hinvm)
            _ = (x1 - (a / m : ℕ) * x0) * a0 := by ring
        exact ih (a % m) (Nat.mod_lt _ (Nat.pos_of_ne_zero hm)) m
          (x1 - (a / m : ℕ) * x0) x0 v (Nat.pos_of_ne_zero hm) hgcd' hinvm hinvm' hrun
    · have ha1 : a = 1 := by omega
      subst ha1
      rw [workerModInvLoop_le 1 m x0 x1 h] at hrun
      have hv : v = x1 := by
        injection hrun with h'; exact h'.symm
      subst hv
      have h1 : (1 : ℤ) ≡ v * a0 [ZMOD m0] := by
        simpa using hinva
      exact h1.symm

/-- Worker `modInv` success: for `a ≥ 1` it succeeds iff `gcd(a, m) = 1`,
and the returned value is an inverse of `a` modulo `m`. -/
theorem workerModInv_correct (a m : ℕ) (ha : 1 ≤ a) :
    ((workerModInv a m).isSome ↔ Nat.gcd a m = 1) ∧
    (∀ v, workerModInv a m = some v → (a : ℤ) * v ≡ 1 [ZMOD m]) := by
  constructor
  · have hiff := workerModInvLoop_isSome_iff m a 0 1 ha
    rw [workerModInv]
    cases hloop : workerModInvLoop a m 0 1 with
    | none => rw [hloop] at hiff; simpa using hiff
    | some w => rw [hloop] at hiff; simpa using hiff
  · intro v hv
    rw [workerModInv, Option.map_eq_some'] at hv
    obtain ⟨w, hw, hnorm⟩ := hv
    have hgcd : Nat.gcd a m = 1 := by
      rw [← workerModInvLoop_isSome_iff m a 0 1 ha, hw]; rfl
    have h1 : (a : ℤ) ≡ 1 * a [ZMOD m] := by rw [one_mul]
    have h2 : (m : ℤ) ≡ 0 * a [ZMOD m] := by
      rw [zero_mul]; exact Int.modEq_zero_iff_dvd.mpr dvd_rfl
    have hw' : w * a ≡ 1 [ZMOD m] :=
      workerModInvLoop_inv m a m a 0 1 w ha hgcd h1 h2 hw
    have : v ≡ w [ZMOD m] := by
      subst hnorm
      by_cases hneg : w < 0
      · rw [if_pos hneg]
        show (w + (m : ℤ)) % m = w % m
        conv_lhs => rw [show w + (m : ℤ) = w + m * 1 by ring]
        exact Int.add_mul_emod_self_left w (m : ℤ) 1
      · rw [if_neg hneg]
    calc (a : ℤ) * v ≡ (a : ℤ) * w [ZMOD m] := this.mul_left _
      _ = w * a := by ring
      _ ≡ 1 [ZMOD m] := hw'

/-! JS `BigInt` `%` is truncated remainder, i.e. `Int.tmod`.  Facts used
to reason about the sign-normalisation patterns `((x % m) + m) % m` and
`if (m < 0) m += n`. -/

theorem tmod_gt_neg (a : ℤ) {b : ℤ} (hb : 0 < b) : -b < Int.tmod a b := by
  rcases a with n | n
  · have h0 : (0 : ℤ) ≤ Int.tmod (Int.ofNat n) b := Int.tmod_nonneg b (Int.natCast_nonneg n)
    omega
  · rcases b with k | k
    · have hk : 0 < k := by
        have h := hb
        rw [Int.ofNat_eq_natCast] at h
        exact_mod_cast h
      rw [show Int.tmod (Int.negSucc n) (Int.ofNat k) = -Int.ofNat ((n + 1) % k) from rfl,
        Int.ofNat_eq_natCast, Int.ofNat_eq_natCast]
      have h2 := Nat.mod_lt (n + 1) hk
      omega
    · exact absurd hb (not_lt.mpr (le_of_lt (Int.negSucc_lt_zero k)))

theorem tmod_modEq (a b : ℤ) : Int.tmod a b ≡ a [ZMOD b] := by
  rw [Int.ModEq, Int.tmod_def]
  conv_lhs => rw [show a - b * a.tdiv b = a + b * (-a.tdiv b) by ring]
  exact Int.add_mul_emod_self_left a b (-a.tdiv b)

/-- The JS pattern `((x % m) + m) % m` lands in `[0, m)` for `m > 0` and is
congruent to `x` modulo `m`. -/
theorem tmod_norm (x : ℤ) {m : ℤ} (hm : 0 < m) :
    0 ≤ ((x.tmod m) + m).tmod m ∧ ((x.tmod m) + m).tmod m < m ∧
      ((x.tmod m) + m).tmod m ≡ x [ZMOD m] := by
  have hlow : -m < x.tmod m := tmod_gt_neg x hm
  have hnn : 0 ≤ x.tmod m + m := by omega
  have heq : ((x.tmod m) + m).tmod m = ((x.tmod m) + m) % m :=
    Int.tmod_eq_emod hnn (le_of_lt hm)
  refine ⟨?_, ?_, ?_⟩
  · rw [heq]; exact Int.emod_nonneg _ (ne_of_gt hm)
  · rw [heq]; exact Int.emod_lt_of_pos _ hm
  · calc ((x.tmod m) + m).tmod m ≡ (x.tmod m) + m [ZMOD m] := tmod_modEq _ _
      _ ≡ x.tmod m + 0 [ZMOD m] :=
        (Int.ModEq.refl _).add (Int.modEq_zero_iff_dvd.mpr dvd_rfl)
      _ = x.tmod m := by ring
      _ ≡ x [ZMOD m] := tmod_modEq x m

/-- Library `egcd` (lines 320-326): `if (b === 0n) return [a, 1n, 0n];
[g, x1, y1] = egcd(b, a % b); return [g, y1, x1 - (a / b) * y1]`.
Both call sites pass non-negative arguments, so `a`, `b` and the gcd are
modelled as `ℕ`; the Bezout coefficients live in `ℤ`. -/
def egcd (a b : ℕ) : ℕ × ℤ × ℤ :=
  if b = 0 then (a, 1, 0)
  else
    let t := egcd b (a % b)
    (t.1, t.2.2, t.2.1 - (a / b : ℕ) * t.2.2)
termination_by b
decreasing_by exact Nat.mod_lt _ (Nat.pos_of_ne_zero (by assumption))

theorem egcd_zero (a : ℕ) : egcd a 0 = (a, 1, 0) := by
  rw [egcd]; simp

theorem egcd_ne (a b : ℕ) (hb : ¬ b = 0) :
    egcd a b =
      ((egcd b (a % b)).1, (egcd b (a % b)).2.2,
        (egcd b (a % b)).2.1 - (a / b : ℕ) * (egcd b (a % b)).2.2) := by
  rw [egcd]; simp [hb]

/-- `egcd` returns the gcd together with Bezout coefficients. -/
theorem egcd_spec : ∀ b a, (egcd a b).1 = Nat.gcd a b ∧
    (a : ℤ) * (egcd a b).2.1 + (b : ℤ) * (egcd a b).2.2 = ((egcd a b).1 : ℤ) := by
  intro b
  induction b using Nat.strong_induction_on with
  | _ b ih =>
    intro a
    by_cases hb : b = 0
    · subst hb; rw [egcd_zero]; simp
    · rw [egcd_ne a b hb]
      obtain ⟨ihg, ihbez⟩ := ih (a % b) (Nat.mod_lt _ (Nat.pos_of_ne_zero hb)) b
      constructor
      · rw [ihg, Nat.gcd_comm b (a % b), ← Nat.gcd_rec b a, Nat.gcd_comm b a]
      · have hdm : (a : ℤ) = (b : ℤ) * ((a / b : ℕ) : ℤ) + ((a % b : ℕ) : ℤ) := by
          exact_mod_cast (Nat.div_add_mod a b).symm
        set t := egcd b (a % b) with ht
        calc (a : ℤ) * t.2.2 + (b : ℤ) * (t.2.1 - (a / b : ℕ) * t.2.2)
            = (b : ℤ) * t.2.1 + ((a : ℤ) - (b : ℤ) * ((a / b : ℕ) : ℤ)) * t.2.2 := by ring
          _ = (b : ℤ) * t.2.1 + ((a % b : ℕ) : ℤ) * t.2.2 := by rw [hdm]; ring_nf
          _ = ((t.1 : ℕ) : ℤ) := ihbez

/-- Library `modInv` (lines 329-337): normalizes a negative `a` with
`((a % m) + m) % m`, runs `egcd`, throws `'modInv: inverse does not exist'`
when the gcd is not 1 (modelled as `none`), and returns
`((x % m) + m) % m` otherwise. -/
def libModInv (a m : ℤ) : Option ℤ :=
  let anorm : ℤ := if a < 0 then ((a.tmod m) + m).tmod m else a
  let t := egcd anorm.toNat m.toNat
  if t.1 ≠ 1 then none
  else some (((t.2.1.tmod m) + m).tmod m)

/-- `Int.gcd` only depends on the residue class of the first argument. -/
theorem int_gcd_congr {m a b : ℤ} (h : a ≡ b [ZMOD m]) : Int.gcd a m = Int.gcd b m := by
  obtain ⟨k, hk⟩ := Int.modEq_iff_dvd.mp h
  have hb : b = a + m * k := by omega
  apply Nat.dvd_antisymm
  · have h1 : ((Int.gcd a m : ℕ) : ℤ) ∣ b := by
      rw [hb]
      exact dvd_add (Int.gcd_dvd_left) (Dvd.dvd.mul_right (Int.gcd_dvd_right) k)
    exact Int.natCast_dvd_natCast.mp (Int.dvd_gcd h1 (Int.gcd_dvd_right))
  · have h1 : ((Int.gcd b m : ℕ) : ℤ) ∣ a := by
      rw [show a = b + m * (-k) by rw [hb]; ring]
      exact dvd_add (Int.gcd_dvd_left) (Dvd.dvd.mul_right (Int.gcd_dvd_right) (-k))
    exact Int.natCast_dvd_natCast.mp (Int.dvd_gcd h1 (Int.gcd_dvd_right))

theorem toNat_eq_natAbs_of_nonneg (x : ℤ) (hx : 0 ≤ x) : x.toNat = x.natAbs := by
  rcases x with n | n
  · rfl
  · exact absurd hx (by simpa using Int.negSucc_lt_zero n)

theorem toNat_gcd_eq (x m : ℤ) (hx : 0 ≤ x) (hm : 0 ≤ m) :
    Nat.gcd x.toNat m.toNat = Int.gcd x m := by
  rw [toNat_eq_natAbs_of_nonneg x hx, toNat_eq_natAbs_of_nonneg m hm]
  rfl

/-- Library `modInv` is a total failure exactly on non-invertible pairs,
and otherwise returns an inverse in `[0, m)`. -/
theorem libModInv_correct (a m : ℤ) (hm : 1 < m) :
    (libModInv a m = none ↔ Int.gcd a m ≠ 1) ∧
    (∀ v, libModInv a m = some v → 0 ≤ v ∧ v < m ∧ a * v ≡ 1 [ZMOD m]) := by
  have hm0 : 0 < m := by omega
  set anorm : ℤ := if a < 0 then ((a.tmod m) + m).tmod m else a with hanorm
  have han : 0 ≤ anorm ∧ anorm ≡ a [ZMOD m] := by
    by_cases hneg : a < 0
    · rw [hanorm, if_pos hneg]
      have h := tmod_norm a hm0
      exact ⟨h.1, h.2.2⟩
    · rw [hanorm, if_neg hneg]
      exact ⟨not_lt.mp hneg, Int.ModEq.refl a⟩
  have hcasts : ((anorm.toNat : ℕ) : ℤ) = anorm := Int.toNat_of_nonneg han.1
  have hcastm : ((m.toNat : ℕ) : ℤ) = m := Int.toNat_of_nonneg (le_of_lt hm0)
  have hg : (egcd anorm.toNat m.toNat).1 = Int.gcd a m := by
    rw [(egcd_spec m.toNat anorm.toNat).1, toNat_gcd_eq anorm m han.1 (le_of_lt hm0)]
    exact int_gcd_congr han.2
  constructor
  · rw [libModInv]
    by_cases hone : (egcd anorm.toNat m.toNat).1 ≠ 1
    · simp only [← hanorm, if_pos hone]
      simpa using fun h => absurd h (hg ▸ hone)
    · simp only [← hanorm, if_neg hone]
      push_neg at hone
      simp only [reduceCtorEq, false_iff, not_not]
      rw [← hg]; exact hone
  · intro v hv
    rw [libModInv] at hv
    by_cases hone : (egcd anorm.toNat m.toNat).1 ≠ 1
    · rw [← hanorm, if_pos hone] at hv
      exact absurd hv (by simp)
    · rw [← hanorm, if_neg hone] at hv
      push_neg at hone
      set x := (egcd anorm.toNat m.toNat).2.1 with hx
      have hveq : v = ((x.tmod m) + m).tmod m := by
        injection hv with h; exact h.symm
      have hnorm := tmod_norm x hm0
      have hbez := (egcd_spec m.toNat anorm.toNat).2
      rw [hone] at hbez
      have hinv : anorm * x ≡ 1 [ZMOD m] := by
        rw [hcasts, hcastm] at hbez
        push_cast at hbez
        have hlin : anorm * x = 1 - m * (egcd anorm.toNat m.toNat).2.2 := by
          linarith [hbez]
        calc anorm * x = 1 - m * (egcd anorm.toNat m.toNat).2.2 := hlin
          _ ≡ 1 - 0 [ZMOD m] :=
              (Int.ModEq.refl 1).sub (Int.modEq_zero_iff_dvd.mpr (Dvd.intro _ rfl))
          _ = 1 := by ring
      refine ⟨hveq ▸ hnorm.1, hveq ▸ hnorm.2.1, ?_⟩
      calc a * v ≡ a * x [ZMOD m] := (hveq ▸ hnorm.2.2).mul_left a
        _ ≡ anorm * x [ZMOD m] := (han.2.symm).mul_right x
        _ ≡ 1 [ZMOD m] := hinv

/-- Worker public key `{ n, g, n2 }` (line 171). -/
structure PubKey where
  n : ℕ
  g : ℕ
  n2 : ℕ
deriving DecidableEq

/-- Worker private key `{ lambda, mu, p, q }` (line 172).  `mu` comes out of
the worker `modInv`, whose value is an integer. -/
structure PrivKey where
  lambda : ℕ
  mu : ℤ
  p : ℕ
  q : ℕ
deriving DecidableEq

structure KeyPair where
  pub : PubKey
  priv : PrivKey
deriving DecidableEq

/-- Body of worker `generatePaillier` (lines 149-174) after the `p`,`q`
retry loop: `lambda = lcm(p-1, q-1)`, `g = n + 1`,
`gl = modPow(g, lambda, n2)`, `mu = modInv(L(gl, n), n)`.
A thrown error in `modInv` (no inverse) aborts key generation (`none`). -/
def generatePaillierCore (p q : ℕ) : Option KeyPair :=
  let n := p * q
  let n2 := n * n
  let lambda := lcmW (p - 1) (q - 1)
  let g := n + 1
  let gl := workerModPow g lambda n2
  match workerModInv (L gl n) n with
  | none => none
  | some mu => some ⟨⟨n, g, n2⟩, ⟨lambda, mu, p, q⟩⟩

/-- Worker `generatePaillier` retry loop (lines 153-162): each iteration
draws a pair of prime candidates (modelled as the input list), rejects it
if `p = q` or if `n = p*q` does not have exactly the requested bit length,
and otherwise proceeds to the body. -/
def generatePaillier (bits : ℕ) : List (ℕ × ℕ) → Option KeyPair
  | [] => none
  | (p, q) :: rest =>
    if p ≠ q ∧ bitLength (p * q) = bits then generatePaillierCore p q
    else generatePaillier bits rest

/-- Worker `encrypt` (lines 177-193).  The blinding factor `r` is drawn
inside a rejection loop (`r in [1, n-1]` retried until `gcd(r, n) = 1`);
it is passed explicitly here and those constraints become hypotheses.
`m` is an integer so that the guard `m < 0n || m >= n` is modelled as in
the source; a thrown range error is `none`. -/
def encryptW (n g : ℕ) (m : ℤ) (r : ℕ) : Option ℕ :=
  let n2 := n * n
  if m < 0 ∨ (n : ℤ) ≤ m then none
  else some (workerModPow g m.toNat n2 * workerModPow r n n2 % n2)

/-- Library `encrypt` (lines 475-491): same range guard and formula, but it
uses the key's `n2` field and its own `modPow`. -/
def encryptL (n g n2 : ℕ) (m : ℤ) (r : ℕ) : Option ℕ :=
  if m < 0 ∨ (n : ℤ) ≤ m then none
  else some (libModPow g m.toNat n2 * libModPow r n n2 % n2)

/-- Worker `homomorphicAdd` (lines 195-203): `(c1 * c2) % n2` with
`n2 = n * n` recomputed from the key's `n`. -/
def homomorphicAddW (n c1 c2 : ℕ) : ℕ := c1 * c2 % (n * n)

/-- Library `homomorphicAdd` (lines 494-496): `(c1 * c2) % publicKey.n2`. -/
def homomorphicAddL (n2 c1 c2 : ℕ) : ℕ := c1 * c2 % n2

/-- Worker `homomorphicScalarMul` (lines 205-213): `modPow(c, k, n * n)`. -/
def homomorphicScalarMulW (n c k : ℕ) : ℕ := workerModPow c k (n * n)

/-- Library `homomorphicScalarMul` (lines 499-501): `modPow(c, k, n2)`. -/
def homomorphicScalarMulL (n2 c k : ℕ) : ℕ := libModPow c k n2

/-- Worker `decrypt` (lines 215-230): `u = modPow(c, lambda, n*n)`,
`m = (L(u, n) * mu) % n`, then `if (m < 0n) m += n`.  The product with `mu`
and the final remainder are JS signed arithmetic (`Int.tmod`). -/
def decryptW (n lambda : ℕ) (mu : ℤ) (c : ℕ) : ℤ :=
  let n2 := n * n
  let u := workerModPow c lambda n2
  let lOfU := L u n
  let m0 := ((lOfU : ℕ) : ℤ) * mu
  let m1 := m0.tmod (n : ℤ)
  if m1 < 0 then m1 + n else m1

/-- Library `decrypt` (lines 510-535): identical formula, with the key's
`n2` field and the library `modPow`. -/
def decryptL (n n2 lambda : ℕ) (mu : ℤ) (c : ℕ) : ℤ :=
  let u := libModPow c lambda n2
  let lOfU := L u n
  let m0 := ((lOfU : ℕ) : ℤ) * mu
  let m1 := m0.tmod (n : ℤ)
  if m1 < 0 then m1 + n else m1

/-- The final two lines of both `decrypt`s normalize any integer into
`[0, n)` while preserving its class mod `n`. -/
theorem decrypt_tail (z : ℤ) (n : ℕ) (hn : 0 < n) :
    0 ≤ (if z.tmod (n : ℤ) < 0 then z.tmod (n : ℤ) + n else z.tmod (n : ℤ)) ∧
    (if z.tmod (n : ℤ) < 0 then z.tmod (n : ℤ) + n else z.tmod (n : ℤ)) < n ∧
    (if z.tmod (n : ℤ) < 0 then z.tmod (n : ℤ) + n else z.tmod (n : ℤ)) ≡ z [ZMOD (n : ℤ)] := by
  have hn' : (0 : ℤ) < n := by exact_mod_cast hn
  have hup : z.tmod (n : ℤ) < n := Int.tmod_lt_of_pos z hn'
  have hlow : -(n : ℤ) < z.tmod (n : ℤ) := tmod_gt_neg z hn'
  have hcong : z.tmod (n : ℤ) ≡ z [ZMOD (n : ℤ)] := tmod_modEq z n
  by_cases hneg : z.tmod (n : ℤ) < 0
  · rw [if_pos hneg]
    refine ⟨by omega, by omega, ?_⟩
    calc z.tmod (n : ℤ) + n ≡ z.tmod (n : ℤ) + 0 [ZMOD (n : ℤ)] :=
          (Int.ModEq.refl _).add (Int.modEq_zero_iff_dvd.mpr dvd_rfl)
      _ = z.tmod (n : ℤ) := by ring
      _ ≡ z [ZMOD (n : ℤ)] := hcong
  · rw [if_neg hneg]
    exact ⟨by omega, hup, hcong⟩

/-- Binomial congruence `(1 + n)^k ≡ 1 + k·n (mod n²)`, the reason the
simple generator `g = n + 1` works. -/
theorem one_add_pow_modEq (n k : ℕ) : (1 + n) ^ k ≡ 1 + k * n [MOD n ^ 2] := by
  induction k with
  | zero => simpa using Nat.ModEq.refl 1
  | succ k ih =>
    calc (1 + n) ^ (k + 1) = (1 + n) ^ k * (1 + n) := by ring
      _ ≡ (1 + k * n) * (1 + n) [MOD n ^ 2] := ih.mul_right _
      _ = (1 + (k + 1) * n) + k * n ^ 2 := by ring
      _ ≡ (1 + (k + 1) * n) + 0 [MOD n ^ 2] :=
          (Nat.ModEq.refl _).add ((Nat.modEq_zero_iff_dvd).mpr ⟨k, by ring⟩)
      _ = 1 + (k + 1) * n := by ring

/-- Carmichael-style lemma: for distinct primes `p`, `q` and `r` coprime
to `n = p q`, `r^(n·lcm(p-1, q-1)) ≡ 1 (mod n²)`. -/
theorem pow_n_lambda_modEq (p q r : ℕ) (hp : p.Prime) (hq : q.Prime) (hpq : p ≠ q)
    (hr : Nat.Coprime r (p * q)) :
    r ^ ((p * q) * Nat.lcm (p - 1) (q - 1)) ≡ 1 [MOD (p * q) ^ 2] := by
  have hco : Nat.Coprime p q := (Nat.coprime_primes hp hq).mpr hpq
  have hsub : ∀ s t : ℕ, s.Prime → Nat.Coprime r s → (s * (s - 1)) ∣ ((p * q) * Nat.lcm (p - 1) (q - 1)) →
      r ^ ((p * q) * Nat.lcm (p - 1) (q - 1)) ≡ 1 [MOD s ^ 2] := by
    intro s t hs hrs hdvd
    have hrs2 : Nat.Coprime r (s ^ 2) := Nat.Coprime.pow_right 2 hrs
    have heuler : r ^ (s ^ 2).totient ≡ 1 [MOD s ^ 2] := Nat.ModEq.pow_totient hrs2
    have htot : (s ^ 2).totient = s * (s - 1) := by
      rw [Nat.totient_prime_pow hs (by norm_num : 0 < 2)]
      norm_num
    rw [htot] at heuler
    obtain ⟨w, hw⟩ := hdvd
    calc r ^ ((p * q) * Nat.lcm (p - 1) (q - 1)) = (r ^ (s * (s - 1))) ^ w := by
          rw [← pow_mul, ← hw]
      _ ≡ 1 ^ w [MOD s ^ 2] := heuler.pow w
      _ = 1 := one_pow w
  have hrp : Nat.Coprime r p := Nat.Coprime.coprime_dvd_right (dvd_mul_right p q) hr
  have hrq : Nat.Coprime r q := Nat.Coprime.coprime_dvd_right (dvd_mul_left q p) hr
  have hdp : (p * (p - 1)) ∣ ((p * q) * Nat.lcm (p - 1) (q - 1)) :=
    mul_dvd_mul (dvd_mul_right p q) (Nat.dvd_lcm_left _ _)
  have hdq : (q * (q - 1)) ∣ ((p * q) * Nat.lcm (p - 1) (q - 1)) :=
    mul_dvd_mul (dvd_mul_left q p) (Nat.dvd_lcm_right _ _)
  have hmp := hsub p q hp hrp hdp
  have hmq := hsub q p hq hrq hdq
  have hcosq : Nat.Coprime (p ^ 2) (q ^ 2) := Nat.Coprime.pow 2 2 hco
  have hmul := (Nat.modEq_and_modEq_iff_modEq_mul hcosq).mp ⟨hmp, hmq⟩
  have hrw : p ^ 2 * q ^ 2 = (p * q) ^ 2 := by ring
  rwa [hrw] at hmul

/-- Master decryption lemma: with `n = p·q` a product of distinct primes,
`lambda = lcm(p-1, q-1)`, `mu` an inverse of `lambda` mod `n`, worker
`decrypt` maps any `c ≡ (1+n)^a · r^n (mod n²)` with `gcd(r, n) = 1`
to `a mod n`. -/
theorem decryptW_spec (p q lambda : ℕ) (mu : ℤ) (a r c : ℕ)
    (hp : p.Prime) (hq : q.Prime) (hpq : p ≠ q)
    (hl : lambda = Nat.lcm (p - 1) (q - 1))
    (hmu : (lambda : ℤ) * mu ≡ 1 [ZMOD ((p * q : ℕ) : ℤ)])
    (hr : Nat.Coprime r (p * q))
    (hcong : c ≡ (1 + p * q) ^ a * r ^ (p * q) [MOD (p * q) * (p * q)]) :
    decryptW (p * q) lambda mu c = ((a % (p * q) : ℕ) : ℤ) := by
  set n := p * q with hn
  have hp2 : 2 ≤ p := hp.two_le
  have hq2 : 2 ≤ q := hq.two_le
  have hn4 : 4 ≤ n := by calc 4 = 2 * 2 := by norm_num
                           _ ≤ p * q := Nat.mul_le_mul hp2 hq2
  have hn0 : 0 < n := by omega
  have hn1 : 1 < n * n := by nlinarith
  set s := (a * lambda) % n with hs
  have hu : workerModPow c lambda (n * n) = 1 + s * n := by
    rw [workerModPow_eq c lambda (n * n) hn1]
    have h1 : c ^ lambda ≡ ((1 + n) ^ a * r ^ n) ^ lambda [MOD n * n] := hcong.pow lambda
    have h2 : ((1 + n) ^ a * r ^ n) ^ lambda = (1 + n) ^ (a * lambda) * r ^ (n * lambda) := by
      rw [mul_pow, ← pow_mul, ← pow_mul]
    have h3 : r ^ (n * lambda) ≡ 1 [MOD n * n] := by
      have hcar := pow_n_lambda_modEq p q r hp hq hpq hr
      rw [← hl, pow_two] at hcar
      exact hcar
    have h4 : (1 + n) ^ (a * lambda) ≡ 1 + (a * lambda) * n [MOD n * n] := by
      have hb := one_add_pow_modEq n (a * lambda)
      rwa [pow_two] at hb
    have h5 : c ^ lambda ≡ 1 + (a * lambda) * n [MOD n * n] := by
      calc c ^ lambda ≡ (1 + n) ^ (a * lambda) * r ^ (n * lambda) [MOD n * n] := by
            rw [← h2]; exact h1
        _ ≡ (1 + (a * lambda) * n) * 1 [MOD n * n] := h4.mul h3
        _ = 1 + (a * lambda) * n := by ring
    have h6 : 1 + (a * lambda) * n ≡ 1 + s * n [MOD n * n] := by
      have hsplitEq : 1 + (a * lambda) * n = 1 + s * n + ((a * lambda) / n) * (n * n) := by
        conv_lhs => rw [← Nat.div_add_mod (a * lambda) n]
        rw [hs]; ring
      rw [hsplitEq]
      calc 1 + s * n + ((a * lambda) / n) * (n * n)
          ≡ 1 + s * n + 0 [MOD n * n] :=
            (Nat.ModEq.refl _).add ((Nat.modEq_zero_iff_dvd).mpr ⟨(a * lambda) / n, by ring⟩)
        _ = 1 + s * n := by ring
    have hslt : s < n := Nat.mod_lt _ hn0
    have hlt : 1 + s * n < n * n := by nlinarith
    calc c ^ lambda % (n * n) = (1 + s * n) % (n * n) := h5.trans h6
      _ = 1 + s * n := Nat.mod_eq_of_lt hlt
  have hL : L (1 + s * n) n = s := by
    rw [L]
    simp only [Nat.add_sub_cancel_left]
    exact Nat.mul_div_cancel s hn0
  have hcz : ((s : ℕ) : ℤ) * mu ≡ (a : ℤ) [ZMOD (n : ℤ)] := by
    have hcast : ((s : ℕ) : ℤ) = ((a * lambda : ℕ) : ℤ) % (n : ℤ) := by
      rw [hs]; push_cast; ring
    have hsm : ((s : ℕ) : ℤ) ≡ ((a * lambda : ℕ) : ℤ) [ZMOD (n : ℤ)] := by
      rw [hcast]
      exact Int.emod_emod_of_dvd _ dvd_rfl
    calc ((s : ℕ) : ℤ) * mu ≡ ((a * lambda : ℕ) : ℤ) * mu [ZMOD (n : ℤ)] := hsm.mul_right mu
      _ = (a : ℤ) * ((lambda : ℤ) * mu) := by push_cast; ring
      _ ≡ (a : ℤ) * 1 [ZMOD (n : ℤ)] := hmu.mul_left (a : ℤ)
      _ = (a : ℤ) := by ring
  obtain ⟨hout0, hout1, hout2⟩ := decrypt_tail (((s : ℕ) : ℤ) * mu) n hn0
  have hfinal :
      (if ((((s : ℕ) : ℤ) * mu).tmod (n : ℤ)) < 0
        then (((s : ℕ) : ℤ) * mu).tmod (n : ℤ) + n
        else (((s : ℕ) : ℤ) * mu).tmod (n : ℤ)) = ((a % n : ℕ) : ℤ) := by
    set out := if ((((s : ℕ) : ℤ) * mu).tmod (n : ℤ)) < 0
        then (((s : ℕ) : ℤ) * mu).tmod (n : ℤ) + n
        else (((s : ℕ) : ℤ) * mu).tmod (n : ℤ) with hdef
    have hmodeq : out % (n : ℤ) = (a : ℤ) % (n : ℤ) := hout2.trans hcz
    have hself : out % (n : ℤ) = out := Int.emod_emod_of_dvd out dvd_rfl ▸
      Int.emod_eq_of_lt hout0 hout1
    rw [← hself, hmodeq]
    push_cast
    ring
  show (if ((((L (workerModPow c lambda (n * n)) n : ℕ) : ℤ) * mu).tmod (n : ℤ)) < 0
      then (((L (workerModPow c lambda (n * n)) n : ℕ) : ℤ) * mu).tmod (n : ℤ) + n
      else (((L (workerModPow c lambda (n * n)) n : ℕ) : ℤ) * mu).tmod (n : ℤ)) =
      ((a % n : ℕ) : ℤ)
  rw [hu, hL]
  exact hfinal

theorem L_one_add (s n : ℕ) (hn : 0 < n) : L (1 + s * n) n = s := by
  rw [L]
  simp only [Nat.add_sub_cancel_left]
  exact Nat.mul_div_cancel s hn

/-- Inversion of a successful worker key generation body: the produced key
fields, and the algebraic facts `lambda = lcm(p-1, q-1)` and
`lambda · mu ≡ 1 (mod n)` that the `modInv` call guarantees. -/
theorem generatePaillierCore_some (p q : ℕ) (hp : p.Prime) (hq : q.Prime)
    (kp : KeyPair) (h : generatePaillierCore p q = some kp) :
    kp.pub.n = p * q ∧ kp.pub.g = p * q + 1 ∧ kp.pub.n2 = (p * q) * (p * q) ∧
    kp.priv.lambda = Nat.lcm (p - 1) (q - 1) ∧ kp.priv.p = p ∧ kp.priv.q = q ∧
    ((kp.priv.lambda : ℤ) * kp.priv.mu ≡ 1 [ZMOD ((p * q : ℕ) : ℤ)]) := by
  set n := p * q with hn
  set lambda := Nat.lcm (p - 1) (q - 1) with hl
  have hp2 : 2 ≤ p := hp.two_le
  have hq2 : 2 ≤ q := hq.two_le
  have hn4 : 4 ≤ n := by calc 4 = 2 * 2 := by norm_num
                           _ ≤ p * q := Nat.mul_le_mul hp2 hq2
  have hn1 : 1 < n * n := by nlinarith
  have hlpos : 1 ≤ lambda :=
    Nat.lcm_pos (by omega : 0 < p - 1) (by omega : 0 < q - 1)
  have hllt : lambda < n := by
    have hdvd : lambda ∣ (p - 1) * (q - 1) := Nat.lcm_dvd_mul _ _
    have hle : lambda ≤ (p - 1) * (q - 1) :=
      Nat.le_of_dvd (Nat.mul_pos (by omega) (by omega)) hdvd
    have : (p - 1) * (q - 1) < p * q := by
      apply Nat.mul_lt_mul_of_lt_of_le (by omega) (by omega)
      omega
    omega
  have hgl : workerModPow (n + 1) lambda (n * n) = 1 + lambda * n := by
    rw [workerModPow_eq _ _ _ hn1]
    have hb : (1 + n) ^ lambda ≡ 1 + lambda * n [MOD n * n] := by
      have := one_add_pow_modEq n lambda
      rwa [pow_two] at this
    have hlt : 1 + lambda * n < n * n := by nlinarith
    calc (n + 1) ^ lambda % (n * n) = (1 + n) ^ lambda % (n * n) := by rw [Nat.add_comm n 1]
      _ = (1 + lambda * n) % (n * n) := hb
      _ = 1 + lambda * n := Nat.mod_eq_of_lt hlt
  rw [generatePaillierCore] at h
  simp only [lcmW_eq] at h
  simp only [← hn, ← hl, hgl, L_one_add lambda n (by omega)] at h
  cases hinv : workerModInv lambda n with
  | none => rw [hinv] at h; exact absurd h (by simp)
  | some mu =>
    rw [hinv] at h
    have hkp : kp = ⟨⟨n, n + 1, n * n⟩, ⟨lambda, mu, p, q⟩⟩ := by
      injection h with h'; exact h'.symm
    subst hkp
    refine ⟨rfl, rfl, rfl, rfl, rfl, rfl, ?_⟩
    exact (workerModInv_correct lambda n hlpos).2 mu hinv

/-- A successful worker key generation run used some pair from the stream
that passed the `p ≠ q` and exact-bit-length guards. -/
theorem generatePaillier_some (bits : ℕ) (pairs : List (ℕ × ℕ)) (kp : KeyPair)
    (h : generatePaillier bits pairs = some kp) :
    ∃ pq ∈ pairs, pq.1 ≠ pq.2 ∧ bitLength (pq.1 * pq.2) = bits ∧
      generatePaillierCore pq.1 pq.2 = some kp := by
  induction pairs with
  | nil => exact absurd h (by simp [generatePaillier])
  | cons hd tl ih =>
    obtain ⟨p, q⟩ := hd
    rw [generatePaillier] at h
    by_cases hcond : p ≠ q ∧ bitLength (p * q) = bits
    · rw [if_pos hcond] at h
      exact ⟨(p, q), by simp, hcond.1, hcond.2, h⟩
    · rw [if_neg hcond] at h
      obtain ⟨pq, hmem, h1, h2, h3⟩ := ih h
      exact ⟨pq, by simp [hmem], h1, h2, h3⟩

/-- Inversion of a successful worker encryption: the message was in range
and the ciphertext is `g^m · r^n mod n²`. -/
theorem encryptW_some (n g : ℕ) (m : ℤ) (r : ℕ) (c : ℕ) (hn1 : 1 < n * n)
    (h : encryptW n g m r = some c) :
    0 ≤ m ∧ m < n ∧ c = g ^ m.toNat * r ^ n % (n * n) := by
  rw [encryptW] at h
  by_cases hguard : m < 0 ∨ (n : ℤ) ≤ m
  · rw [if_pos hguard] at h; exact absurd h (by simp)
  · rw [if_neg hguard] at h
    push_neg at hguard
    have hc : c = workerModPow g m.toNat (n * n) * workerModPow r n (n * n) % (n * n) := by
      injection h with h'; exact h'.symm
    refine ⟨hguard.1, hguard.2, ?_⟩
    rw [hc, workerModPow_eq _ _ _ hn1, workerModPow_eq _ _ _ hn1, ← Nat.mul_mod]

theorem bitLength_eq (m k : ℕ) (h1 : m < 2 ^ k) (h2 : 2 ^ (k - 1) ≤ m) (hk : 1 ≤ k) :
    bitLength m = k := by
  have hle : Nat.size m ≤ k := Nat.size_le.mpr h1
  have hgt : k - 1 < Nat.size m := Nat.lt_size.mpr h2
  rw [bitLength]
  omega

/-- C1: for every keypair produced by worker key generation (the candidate
pair stream delivering primes, as `generatePrime` guarantees), every
plaintext `m` with `0 ≤ m < n`, and every blinding factor `r ∈ [1, n-1]`
with `gcd(r, n) = 1` drawn during encryption, decryption inverts
encryption exactly: `decrypt(encrypt(m)) = m`. -/
theorem c1_roundtrip (bits : ℕ) (pairs : List (ℕ × ℕ))
    (hprime : ∀ pr ∈ pairs, Nat.Prime pr.1 ∧ Nat.Prime pr.2)
    (kp : KeyPair) (hgen : generatePaillier bits pairs = some kp)
    (m : ℕ) (hm : m < kp.pub.n)
    (r : ℕ) (hr1 : 1 ≤ r) (hr2 : r ≤ kp.pub.n - 1) (hrcop : Nat.gcd r kp.pub.n = 1)
    (c : ℕ) (henc : encryptW kp.pub.n kp.pub.g (m : ℤ) r = some c) :
    decryptW kp.pub.n kp.priv.lambda kp.priv.mu c = (m : ℤ) := by
  obtain ⟨⟨p, q⟩, hmem, hne, hbits, hcore⟩ := generatePaillier_some bits pairs kp hgen
  obtain ⟨hp, hq⟩ := hprime (p, q) hmem
  obtain ⟨hN, hG, hN2, hLam, hP, hQ, hMu⟩ := generatePaillierCore_some p q hp hq kp hcore
  have hp2 := hp.two_le
  have hq2 := hq.two_le
  have hn1 : 1 < (p * q) * (p * q) := by nlinarith
  rw [hN] at hm hrcop
  rw [hN, hG] at henc
  obtain ⟨hm0, hmlt, hc⟩ := encryptW_some _ _ _ _ _ hn1 henc
  have hcong : c ≡ (1 + p * q) ^ m * r ^ (p * q) [MOD (p * q) * (p * q)] := by
    rw [hc]
    have htn : ((m : ℤ)).toNat = m := Int.toNat_natCast m
    rw [htn, Nat.add_comm (p * q) 1]
    exact Nat.mod_modEq _ _
  have hres := decryptW_spec p q kp.priv.lambda kp.priv.mu m r c hp hq hne
    hLam hMu hrcop hcong
  rw [hN, hres]
  have hmn : m < p * q := by exact_mod_cast hmlt
  rw [Nat.mod_eq_of_lt hmn]

/-- Witness for C1 at the concrete keypair generated from `(p, q) = (5, 7)`
(`n = 35`, `λ = 12`, `μ = 3`), plaintext `m = 2`, blinding `r = 3`. -/
theorem c1_roundtrip_witness :
    (∀ pr ∈ [((5 : ℕ), (7 : ℕ))], Nat.Prime pr.1 ∧ Nat.Prime pr.2) ∧
    generatePaillier 6 [(5, 7)] = some ⟨⟨35, 36, 1225⟩, ⟨12, 3, 5, 7⟩⟩ ∧
    (2 : ℕ) < 35 ∧ Nat.gcd 3 35 = 1 ∧
    encryptW 35 36 ((2 : ℕ) : ℤ) 3 = some 222 ∧
    decryptW 35 12 3 222 = ((2 : ℕ) : ℤ) := by
  have hp5 : Nat.Prime 5 := by norm_num
  have hp7 : Nat.Prime 7 := by norm_num
  have hprime : ∀ pr ∈ [((5 : ℕ), (7 : ℕ))], Nat.Prime pr.1 ∧ Nat.Prime pr.2 := by
    intro pr hpr
    rw [List.mem_singleton] at hpr
    subst hpr
    exact ⟨hp5, hp7⟩
  have hbl : bitLength 35 = 6 := bitLength_eq 35 6 (by norm_num) (by norm_num) (by norm_num)
  have hgen : generatePaillier 6 [(5, 7)] = some ⟨⟨35, 36, 1225⟩, ⟨12, 3, 5, 7⟩⟩ := by
    norm_num [generatePaillier, generatePaillierCore, lcmW, gcdW_eq,
      workerModInv, modPowLoop_ne, modPowLoop_zero, workerModPow,
      workerModInvLoop_gt, workerModInvLoop_le, L, hbl]
  have henc : encryptW 35 36 ((2 : ℕ) : ℤ) 3 = some 222 := by
    simp only [encryptW, Int.toNat_natCast]
    norm_num [workerModPow, modPowLoop_ne, modPowLoop_zero]
  exact ⟨hprime, hgen, by norm_num, by norm_num, henc,
    c1_roundtrip 6 [(5, 7)] hprime ⟨⟨35, 36, 1225⟩, ⟨12, 3, 5, 7⟩⟩ hgen 2 (by norm_num)
      3 (by norm_num) (by norm_num) (by norm_num) 222 henc⟩

/-- C2: for every generated keypair, plaintexts `m1, m2 ∈ [0, n)` and any
valid encryption randomness, decrypting the homomorphic sum
`(c1 · c2) mod n²` (both the worker and the library `homomorphicAdd`)
yields `(m1 + m2) mod n`. -/
theorem c2_homomorphic_add (bits : ℕ) (pairs : List (ℕ × ℕ))
    (hprime : ∀ pr ∈ pairs, Nat.Prime pr.1 ∧ Nat.Prime pr.2)
    (kp : KeyPair) (hgen : generatePaillier bits pairs = some kp)
    (m1 m2 : ℕ) (hm1 : m1 < kp.pub.n) (hm2 : m2 < kp.pub.n)
    (r1 r2 : ℕ) (hr1 : Nat.gcd r1 kp.pub.n = 1) (hr2 : Nat.gcd r2 kp.pub.n = 1)
    (c1 c2 : ℕ)
    (henc1 : encryptW kp.pub.n kp.pub.g (m1 : ℤ) r1 = some c1)
    (henc2 : encryptW kp.pub.n kp.pub.g (m2 : ℤ) r2 = some c2) :
    decryptW kp.pub.n kp.priv.lambda kp.priv.mu (homomorphicAddW kp.pub.n c1 c2)
      = (((m1 + m2) % kp.pub.n : ℕ) : ℤ) ∧
    decryptW kp.pub.n kp.priv.lambda kp.priv.mu (homomorphicAddL kp.pub.n2 c1 c2)
      = (((m1 + m2) % kp.pub.n : ℕ) : ℤ) := by
  obtain ⟨⟨p, q⟩, hmem, hne, hbits, hcore⟩ := generatePaillier_some bits pairs kp hgen
  obtain ⟨hp, hq⟩ := hprime (p, q) hmem
  obtain ⟨hN, hG, hN2, hLam, hP, hQ, hMu⟩ := generatePaillierCore_some p q hp hq kp hcore
  have hp2 := hp.two_le
  have hq2 := hq.two_le
  have hn1 : 1 < (p * q) * (p * q) := by nlinarith
  rw [hN] at hr1 hr2
  rw [hN, hG] at henc1 henc2
  obtain ⟨hm10, hm1lt, hc1⟩ := encryptW_some _ _ _ _ _ hn1 henc1
  obtain ⟨hm20, hm2lt, hc2⟩ := encryptW_some _ _ _ _ _ hn1 henc2
  have htn1 : ((m1 : ℤ)).toNat = m1 := Int.toNat_natCast m1
  have htn2 : ((m2 : ℤ)).toNat = m2 := Int.toNat_natCast m2
  rw [htn1] at hc1
  rw [htn2] at hc2
  have hcong : homomorphicAddW (p * q) c1 c2 ≡
      (1 + p * q) ^ (m1 + m2) * (r1 * r2) ^ (p * q) [MOD (p * q) * (p * q)] := by
    rw [homomorphicAddW, hc1, hc2]
    calc ((p * q + 1) ^ m1 * r1 ^ (p * q) % ((p * q) * (p * q))) *
          ((p * q + 1) ^ m2 * r2 ^ (p * q) % ((p * q) * (p * q))) % ((p * q) * (p * q))
        ≡ ((p * q + 1) ^ m1 * r1 ^ (p * q) % ((p * q) * (p * q))) *
          ((p * q + 1) ^ m2 * r2 ^ (p * q) % ((p * q) * (p * q))) [MOD (p * q) * (p * q)] :=
          Nat.mod_modEq _ _
      _ ≡ ((p * q + 1) ^ m1 * r1 ^ (p * q)) *
          ((p * q + 1) ^ m2 * r2 ^ (p * q)) [MOD (p * q) * (p * q)] :=
          (Nat.mod_modEq _ _).mul (Nat.mod_modEq _ _)
      _ = (1 + p * q) ^ (m1 + m2) * (r1 * r2) ^ (p * q) := by
          rw [Nat.add_comm (p * q) 1, pow_add, mul_pow]; ring
  have hrr : Nat.Coprime (r1 * r2) (p * q) := Nat.Coprime.mul hr1 hr2
  have hres := decryptW_spec p q kp.priv.lambda kp.priv.mu (m1 + m2) (r1 * r2)
    (homomorphicAddW (p * q) c1 c2) hp hq hne hLam hMu hrr hcong
  constructor
  · rw [hN, hres]
  · have hsame : homomorphicAddL kp.pub.n2 c1 c2 = homomorphicAddW (p * q) c1 c2 := by
      rw [hN2, homomorphicAddL, homomorphicAddW]
    rw [hN, hsame, hres]

/-- Witness for C2 with the `(5, 7)` keypair: `m1 = 2` (r = 3, c = 222),
`m2 = 3` (r = 4, c = 44), sum ciphertext `222·44 mod 1225 = 1193`,
decrypting to `5 = (2 + 3) mod 35`. -/
theorem c2_homomorphic_add_witness :
    generatePaillier 6 [(5, 7)] = some ⟨⟨35, 36, 1225⟩, ⟨12, 3, 5, 7⟩⟩ ∧
    encryptW 35 36 ((2 : ℕ) : ℤ) 3 = some 222 ∧
    encryptW 35 36 ((3 : ℕ) : ℤ) 4 = some 44 ∧
    decryptW 35 12 3 (homomorphicAddW 35 222 44) = (((2 + 3) % 35 : ℕ) : ℤ) ∧
    decryptW 35 12 3 (homomorphicAddL 1225 222 44) = (((2 + 3) % 35 : ℕ) : ℤ) := by
  have hp5 : Nat.Prime 5 := by norm_num
  have hp7 : Nat.Prime 7 := by norm_num
  have hprime : ∀ pr ∈ [((5 : ℕ), (7 : ℕ))], Nat.Prime pr.1 ∧ Nat.Prime pr.2 := by
    intro pr hpr
    rw [List.mem_singleton] at hpr
    subst hpr
    exact ⟨hp5, hp7⟩
  have hbl : bitLength 35 = 6 := bitLength_eq 35 6 (by norm_num) (by norm_num) (by norm_num)
  have hgen : generatePaillier 6 [(5, 7)] = some ⟨⟨35, 36, 1225⟩, ⟨12, 3, 5, 7⟩⟩ := by
    norm_num [generatePaillier, generatePaillierCore, lcmW, gcdW_eq,
      workerModInv, modPowLoop_ne, modPowLoop_zero, workerModPow,
      workerModInvLoop_gt, workerModInvLoop_le, L, hbl]
  have henc1 : encryptW 35 36 ((2 : ℕ) : ℤ) 3 = some 222 := by
    simp only [encryptW, Int.toNat_natCast]
    norm_num [workerModPow, modPowLoop_ne, modPowLoop_zero]
  have henc2 : encryptW 35 36 ((3 : ℕ) : ℤ) 4 = some 44 := by
    simp only [encryptW, Int.toNat_natCast]
    norm_num [workerModPow, modPowLoop_ne, modPowLoop_zero]
  have hmain := c2_homomorphic_add 6 [(5, 7)] hprime ⟨⟨35, 36, 1225⟩, ⟨12, 3, 5, 7⟩⟩ hgen
    2 3 (by norm_num) (by norm_num) 3 4 (by norm_num) (by norm_num) 222 44 henc1 henc2
  exact ⟨hgen, henc1, henc2, hmain.1, hmain.2⟩

/-- C3: for every generated keypair, plaintext `m ∈ [0, n)`, non-negative
scalar `k`, and any valid encryption randomness, decrypting the scalar
product `c^k mod n²` (worker and library `homomorphicScalarMul`) yields
`(k · m) mod n`. -/
theorem c3_homomorphic_scalar_mul (bits : ℕ) (pairs : List (ℕ × ℕ))
    (hprime : ∀ pr ∈ pairs, Nat.Prime pr.1 ∧ Nat.Prime pr.2)
    (kp : KeyPair) (hgen : generatePaillier bits pairs = some kp)
    (m : ℕ) (hm : m < kp.pub.n) (k : ℕ)
    (r : ℕ) (hr : Nat.gcd r kp.pub.n = 1)
    (c : ℕ) (henc : encryptW kp.pub.n kp.pub.g (m : ℤ) r = some c) :
    decryptW kp.pub.n kp.priv.lambda kp.priv.mu (homomorphicScalarMulW kp.pub.n c k)
      = (((k * m) % kp.pub.n : ℕ) : ℤ) ∧
    decryptW kp.pub.n kp.priv.lambda kp.priv.mu (homomorphicScalarMulL kp.pub.n2 c k)
      = (((k * m) % kp.pub.n : ℕ) : ℤ) := by
  obtain ⟨⟨p, q⟩, hmem, hne, hbits, hcore⟩ := generatePaillier_some bits pairs kp hgen
  obtain ⟨hp, hq⟩ := hprime (p, q) hmem
  obtain ⟨hN, hG, hN2, hLam, hP, hQ, hMu⟩ := generatePaillierCore_some p q hp hq kp hcore
  have hp2 := hp.two_le
  have hq2 := hq.two_le
  have hn1 : 1 < (p * q) * (p * q) := by nlinarith
  rw [hN] at hr
  rw [hN, hG] at henc
  obtain ⟨hm0, hmlt, hc⟩ := encryptW_some _ _ _ _ _ hn1 henc
  have htn : ((m : ℤ)).toNat = m := Int.toNat_natCast m
  rw [htn] at hc
  have hcong : homomorphicScalarMulW (p * q) c k ≡
      (1 + p * q) ^ (k * m) * (r ^ k) ^ (p * q) [MOD (p * q) * (p * q)] := by
    rw [homomorphicScalarMulW, workerModPow_eq _ _ _ hn1, hc]
    calc ((p * q + 1) ^ m * r ^ (p * q) % ((p * q) * (p * q))) ^ k % ((p * q) * (p * q))
        ≡ ((p * q + 1) ^ m * r ^ (p * q) % ((p * q) * (p * q))) ^ k
            [MOD (p * q) * (p * q)] := Nat.mod_modEq _ _
      _ ≡ ((p * q + 1) ^ m * r ^ (p * q)) ^ k [MOD (p * q) * (p * q)] :=
          (Nat.mod_modEq _ _).pow k
      _ = (1 + p * q) ^ (k * m) * (r ^ k) ^ (p * q) := by
          rw [Nat.add_comm (p * q) 1, mul_pow, ← pow_mul, ← pow_mul, Nat.mul_comm m k,
            Nat.mul_comm (p * q) k, pow_mul r k (p * q)]
  have hrk : Nat.Coprime (r ^ k) (p * q) := Nat.Coprime.pow_left k hr
  have hres := decryptW_spec p q kp.priv.lambda kp.priv.mu (k * m) (r ^ k)
    (homomorphicScalarMulW (p * q) c k) hp hq hne hLam hMu hrk hcong
  constructor
  · rw [hN, hres]
  · have hsame : homomorphicScalarMulL kp.pub.n2 c k = homomorphicScalarMulW (p * q) c k := by
      rw [hN2, homomorphicScalarMulL, homomorphicScalarMulW,
        libModPow_eq _ _ _ hn1, workerModPow_eq _ _ _ hn1]
    rw [hN, hsame, hres]

/-- Witness for C3 with the `(5, 7)` keypair: `m = 2` (r = 3, c = 222),
`k = 5`, scalar ciphertext `222^5 mod 1225 = 1032`, decrypting to
`10 = (5·2) mod 35`. -/
theorem c3_homomorphic_scalar_mul_witness :
    generatePaillier 6 [(5, 7)] = some ⟨⟨35, 36, 1225⟩, ⟨12, 3, 5, 7⟩⟩ ∧
    encryptW 35 36 ((2 : ℕ) : ℤ) 3 = some 222 ∧
    decryptW 35 12 3 (homomorphicScalarMulW 35 222 5) = (((5 * 2) % 35 : ℕ) : ℤ) ∧
    decryptW 35 12 3 (homomorphicScalarMulL 1225 222 5) = (((5 * 2) % 35 : ℕ) : ℤ) := by
  have hp5 : Nat.Prime 5 := by norm_num
  have hp7 : Nat.Prime 7 := by norm_num
  have hprime : ∀ pr ∈ [((5 : ℕ), (7 : ℕ))], Nat.Prime pr.1 ∧ Nat.Prime pr.2 := by
    intro pr hpr
    rw [List.mem_singleton] at hpr
    subst hpr
    exact ⟨hp5, hp7⟩
  have hbl : bitLength 35 = 6 := bitLength_eq 35 6 (by norm_num) (by norm_num) (by norm_num)
  have hgen : generatePaillier 6 [(5, 7)] = some ⟨⟨35, 36, 1225⟩, ⟨12, 3, 5, 7⟩⟩ := by
    norm_num [generatePaillier, generatePaillierCore, lcmW, gcdW_eq,
      workerModInv, modPowLoop_ne, modPowLoop_zero, workerModPow,
      workerModInvLoop_gt, workerModInvLoop_le, L, hbl]
  have henc : encryptW 35 36 ((2 : ℕ) : ℤ) 3 = some 222 := by
    simp only [encryptW, Int.toNat_natCast]
    norm_num [workerModPow, modPowLoop_ne, modPowLoop_zero]
  have hmain := c3_homomorphic_scalar_mul 6 [(5, 7)] hprime
    ⟨⟨35, 36, 1225⟩, ⟨12, 3, 5, 7⟩⟩ hgen 2 (by norm_num) 5 3 (by norm_num) 222 henc
  exact ⟨hgen, henc, hmain.1, hmain.2⟩

/-- C7: both `encrypt`s fail with the range error exactly when `m < 0` or
`m ≥ n`; in particular `m = n` and `m = -1` are rejected, and no ciphertext
is produced in those cases. -/
theorem c7_encrypt_range (n g n2 r : ℕ) (m : ℤ) :
    (encryptW n g m r = none ↔ (m < 0 ∨ (n : ℤ) ≤ m)) ∧
    (encryptL n g n2 m r = none ↔ (m < 0 ∨ (n : ℤ) ≤ m)) ∧
    encryptW n g (n : ℤ) r = none ∧ encryptW n g (-1) r = none ∧
    encryptL n g n2 (n : ℤ) r = none ∧ encryptL n g n2 (-1) r = none := by
  have hW : ∀ m' : ℤ, encryptW n g m' r = none ↔ (m' < 0 ∨ (n : ℤ) ≤ m') := by
    intro m'
    rw [encryptW]
    by_cases h : m' < 0 ∨ (n : ℤ) ≤ m'
    · simp [h]
    · simp [h]
  have hL : ∀ m' : ℤ, encryptL n g n2 m' r = none ↔ (m' < 0 ∨ (n : ℤ) ≤ m') := by
    intro m'
    rw [encryptL]
    by_cases h : m' < 0 ∨ (n : ℤ) ≤ m'
    · simp [h]
    · simp [h]
  exact ⟨hW m, hL m,
    (hW (n : ℤ)).mpr (Or.inr (le_refl _)),
    (hW (-1)).mpr (Or.inl (by norm_num)),
    (hL (n : ℤ)).mpr (Or.inr (le_refl _)),
    (hL (-1)).mpr (Or.inl (by norm_num))⟩

/-- C8 counterexample: the worker `modPow` with modulus 1 and exponent 0
returns its unreduced initial accumulator 1, not 0 as the claim states. -/
theorem c8_counterexample : workerModPow 5 0 1 = 1 ∧ (1 : ℕ) ≠ 0 := by
  constructor
  · rw [workerModPow, modPowLoop_zero]
  · norm_num

/-- C8 (amended): the library `modPow` returns 0 whenever the modulus is 1;
the worker `modPow` returns 1 at modulus 1 for exponent 0 and 0 for every
positive exponent; for every modulus `> 1` both return
`base^exponent mod modulus` (equivalently, the same after first reducing
the base, since `b^e ≡ (b mod m)^e (mod m)`). -/
theorem c8_modpow (b e m : ℕ) :
    libModPow b e 1 = 0 ∧
    workerModPow b e 1 = (if e = 0 then 1 else 0) ∧
    (1 < m → workerModPow b e m = b ^ e % m ∧ libModPow b e m = b ^ e % m) :=
  ⟨libModPow_one b e, workerModPow_one b e,
    fun hm => ⟨workerModPow_eq b e m hm, libModPow_eq b e m hm⟩⟩

/-- Witness for C8 (amended) at `b = 7`, `e = 3`, `m = 5`. -/
theorem c8_modpow_witness :
    (1 < 5) ∧
    (libModPow 7 3 1 = 0 ∧
      workerModPow 7 3 1 = (if 3 = 0 then 1 else 0) ∧
      (1 < 5 → workerModPow 7 3 5 = 7 ^ 3 % 5 ∧ libModPow 7 3 5 = 7 ^ 3 % 5)) :=
  ⟨by norm_num, c8_modpow 7 3 5⟩

/-- C10: for every modulus `n ≥ 1`, any private-key values and any
non-negative `c` (even outside the ciphertext space), both `decrypt`s
return a value in `[0, n)`: the final remainder is normalized by the
`if (m < 0) m += n` step. -/
theorem c10_decrypt_range (n lambda : ℕ) (mu : ℤ) (c : ℕ) (hn : 1 ≤ n) :
    (0 ≤ decryptW n lambda mu c ∧ decryptW n lambda mu c < n) ∧
    ∀ n2, 0 ≤ decryptL n n2 lambda mu c ∧ decryptL n n2 lambda mu c < n := by
  constructor
  · obtain ⟨h0, h1, _⟩ :=
      decrypt_tail (((L (workerModPow c lambda (n * n)) n : ℕ) : ℤ) * mu) n (by omega)
    exact ⟨h0, h1⟩
  · intro n2
    obtain ⟨h0, h1, _⟩ :=
      decrypt_tail (((L (libModPow c lambda n2) n : ℕ) : ℤ) * mu) n (by omega)
    exact ⟨h0, h1⟩

/-- Witness for C10 at `n = 5`, `lambda = 3`, `mu = 2`, `c = 7` (and
`n2 = 25` for the library variant). -/
theorem c10_decrypt_range_witness :
    (1 ≤ 5) ∧
    ((0 ≤ decryptW 5 3 2 7 ∧ decryptW 5 3 2 7 < 5) ∧
      ∀ n2, 0 ≤ decryptL 5 n2 3 2 7 ∧ decryptL 5 n2 3 2 7 < 5) :=
  ⟨by norm_num, c10_decrypt_range 5 3 2 7 (by norm_num)⟩

/-! Serialization: hex strings as `List Char`.  `toString(16)` produces
lowercase digits without a prefix; `BigInt("0x…")` accepts either case. -/

/-- One digit of JS `BigInt.toString(16)` (lowercase). -/
def digitChar (d : ℕ) : Char := if d < 10 then Char.ofNat (48 + d) else Char.ofNat (87 + d)

def toHexAux (n : ℕ) (acc : List Char) : List Char :=
  if n = 0 then acc else toHexAux (n / 16) (digitChar (n % 16) :: acc)
termination_by n
decreasing_by exact Nat.div_lt_self (Nat.pos_of_ne_zero (by assumption)) (by norm_num)

/-- JS `n.toString(16)` for a non-negative bigint: hex digits without a
`0x` prefix, `"0"` for zero. -/
def toHexStr (n : ℕ) : List Char := if n = 0 then ['0'] else toHexAux n []

/-- Hex digit value, accepting both cases like JS `BigInt("0x…")`. -/
def hexVal (c : Char) : Option ℕ :=
  if 48 ≤ c.toNat ∧ c.toNat ≤ 57 then some (c.toNat - 48)
  else if 97 ≤ c.toNat ∧ c.toNat ≤ 102 then some (c.toNat - 87)
  else if 65 ≤ c.toNat ∧ c.toNat ≤ 70 then some (c.toNat - 55)
  else none

def parseHexAux : List Char → ℕ → Option ℕ
  | [], acc => some acc
  | c :: cs, acc =>
    match hexVal c with
    | none => none
    | some d => parseHexAux cs (acc * 16 + d)

/-- JS `BigInt("0x" + s)`: parses the digits of `s`; `BigInt("0x")` throws
on an empty digit string. -/
def parseHex (s : List Char) : Option ℕ :=
  if s = [] then none else parseHexAux s 0

def decVal (c : Char) : Option ℕ :=
  if 48 ≤ c.toNat ∧ c.toNat ≤ 57 then some (c.toNat - 48) else none

def parseDecAux : List Char → ℕ → Option ℕ
  | [], acc => some acc
  | c :: cs, acc =>
    match decVal c with
    | none => none
    | some d => parseDecAux cs (acc * 10 + d)

/-- JS `BigInt(s)` on a string without a `0x` prefix: decimal digits
(`BigInt("")` is `0` in JS; the `0b`/`0o` prefixes are unreachable from the
serializers and not modelled). -/
def parseDec (s : List Char) : Option ℕ := parseDecAux s 0

/-- `s.startsWith('0x') ? BigInt(s) : BigInt('0x' + s)` — the field parser
of both `deserializePublicKey`s and of part_001's `deserializePrivateKey`:
hex with or without the `0x` prefix. -/
def parseHexField (s : List Char) : Option ℕ :=
  if s.take 2 = ['0', 'x'] then parseHex (s.drop 2) else parseHex s

/-- Plain `BigInt(data.lambda)` as in part_000 `deserializePrivateKey`
(lines 563-568): hex only with an explicit `0x` prefix, decimal otherwise. -/
def parseJSNum (s : List Char) : Option ℕ :=
  if s.take 2 = ['0', 'x'] then parseHex (s.drop 2) else parseDec s

/-- Input of `serializePublicKey` (library, lines 540-546). -/
structure PubKeyData where
  n : ℕ
  g : ℕ
  n2 : ℕ
deriving DecidableEq

structure PubSer where
  n : List Char
  g : List Char
  n2 : List Char
deriving DecidableEq

/-- Input of `serializePrivateKey` (library, lines 556-561):
`{ lambda, mu, p?, q? }` with non-negative components. -/
structure PrivKeyData where
  lambda : ℕ
  mu : ℕ
  p : ℕ
  q : ℕ
deriving DecidableEq

/-- Output record of both `deserializePrivateKey`s: `{ lambda, mu }`. -/
structure PrivPair where
  lambda : ℕ
  mu : ℕ
deriving DecidableEq

structure PrivSer where
  lambda : List Char
  mu : List Char
deriving DecidableEq

/-- part_001 public key `{ n, g, n2? }` (n2 optional). -/
structure PubKeyData1 where
  n : ℕ
  g : ℕ
  n2 : Option ℕ
deriving DecidableEq

structure PubSer1 where
  n : List Char
  g : List Char
  n2 : Option (List Char)
deriving DecidableEq

/-- Library `serializePublicKey` (lines 540-546). -/
def serializePublicKey000 (pk : PubKeyData) : PubSer :=
  ⟨toHexStr pk.n, toHexStr pk.g, toHexStr pk.n2⟩

/-- Library `deserializePublicKey` (lines 548-554); a parse failure in any
field throws. -/
def deserializePublicKey000 (d : PubSer) : Option PubKeyData :=
  match parseHexField d.n, parseHexField d.g, parseHexField d.n2 with
  | some n, some g, some n2 => some ⟨n, g, n2⟩
  | _, _, _ => none

/-- Library `serializePrivateKey` (lines 556-561): only `lambda` and `mu`
are written; `p`, `q` are dropped. -/
def serializePrivateKey000 (sk : PrivKeyData) : PrivSer :=
  ⟨toHexStr sk.lambda, toHexStr sk.mu⟩

/-- Library `deserializePrivateKey` (lines 563-568): plain `BigInt(s)`
on each field (decimal unless the string has a `0x` prefix). -/
def deserializePrivateKey000 (d : PrivSer) : Option PrivPair :=
  match parseJSNum d.lambda, parseJSNum d.mu with
  | some l, some m => some ⟨l, m⟩
  | _, _ => none

/-- part_001 `serializePublicKey` (lines 74-80): `n2` is emitted only when
truthy (`undefined` when absent, and `0n` is falsy in JS). -/
def serializePublicKey1 (pk : PubKeyData1) : PubSer1 :=
  ⟨toHexStr pk.n, toHexStr pk.g,
    match pk.n2 with
    | some v => if v = 0 then none else some (toHexStr v)
    | none => none⟩

/-- part_001 `deserializePublicKey` (lines 82-94): the `n2` field is kept
only when the serialized string is truthy (present and non-empty). -/
def deserializePublicKey1 (d : PubSer1) : Option PubKeyData1 :=
  match parseHexField d.n, parseHexField d.g with
  | some n, some g =>
    match d.n2 with
    | some s =>
      if s = [] then some ⟨n, g, none⟩
      else (parseHexField s).map (fun v => ⟨n, g, some v⟩)
    | none => some ⟨n, g, none⟩
  | _, _ => none

/-- part_001 `serializePrivateKey` (lines 96-101). -/
def serializePrivateKey1 (sk : PrivPair) : PrivSer :=
  ⟨toHexStr sk.lambda, toHexStr sk.mu⟩

/-- part_001 `deserializePrivateKey` (lines 103-110): hex with or without
`0x`. -/
def deserializePrivateKey1 (d : PrivSer) : Option PrivPair :=
  match parseHexField d.lambda, parseHexField d.mu with
  | some l, some m => some ⟨l, m⟩
  | _, _ => none

theorem toHexAux_zero (l : List Char) : toHexAux 0 l = l := by
  rw [toHexAux]; simp

theorem toHexAux_ne (n : ℕ) (l : List Char) (h : ¬ n = 0) :
    toHexAux n l = toHexAux (n / 16) (digitChar (n % 16) :: l) := by
  rw [toHexAux]; simp [h]

theorem hexVal_digitChar (d : ℕ) (hd : d < 16) : hexVal (digitChar d) = some d := by
  interval_cases d <;> decide

/-- Number of hex digits (for the parse/print round-trip invariant). -/
def hexLen (n : ℕ) : ℕ :=
  if n = 0 then 0 else hexLen (n / 16) + 1
termination_by n
decreasing_by exact Nat.div_lt_self (Nat.pos_of_ne_zero (by assumption)) (by norm_num)

theorem hexLen_ne (n : ℕ) (h : ¬ n = 0) : hexLen n = hexLen (n / 16) + 1 := by
  rw [hexLen]; simp [h]

theorem parseHexAux_cons_digit (d : ℕ) (hd : d < 16) (cs : List Char) (acc : ℕ) :
    parseHexAux (digitChar d :: cs) acc = parseHexAux cs (acc * 16 + d) := by
  rw [parseHexAux, hexVal_digitChar d hd]

theorem parseHexAux_toHexAux :
    ∀ n, n ≠ 0 → ∀ (l : List Char) (acc : ℕ),
      parseHexAux (toHexAux n l) acc = parseHexAux l (acc * 16 ^ hexLen n + n) := by
  intro n
  induction n using Nat.strong_induction_on with
  | _ n ih =>
    intro hn l acc
    rw [toHexAux_ne n l hn]
    by_cases h16 : n / 16 = 0
    · rw [h16, toHexAux_zero]
      have hlt : n % 16 = n := by omega
      have hlen : hexLen n = 1 := by
        rw [hexLen_ne n hn, h16, hexLen]; simp
      rw [parseHexAux_cons_digit (n % 16) (Nat.mod_lt n (by norm_num)) l acc]
      rw [hlt, hlen]
      norm_num
    · rw [ih (n / 16) (Nat.div_lt_self (Nat.pos_of_ne_zero hn) (by norm_num)) h16]
      rw [parseHexAux_cons_digit (n % 16) (Nat.mod_lt n (by omega))]
      have hlen : hexLen n = hexLen (n / 16) + 1 := hexLen_ne n hn
      rw [hlen]
      congr 1
      have hdm : n / 16 * 16 + n % 16 = n := by omega
      rw [pow_succ]
      calc (acc * 16 ^ hexLen (n / 16) + n / 16) * 16 + n % 16
          = acc * (16 ^ hexLen (n / 16) * 16) + (n / 16 * 16 + n % 16) := by ring
        _ = acc * (16 ^ hexLen (n / 16) * 16) + n := by rw [hdm]

theorem toHexAux_cons (n : ℕ) (hn : n ≠ 0) (l : List Char) :
    ∃ c cs, toHexAux n l = c :: cs := by
  induction n using Nat.strong_induction_on generalizing l with
  | _ n ih =>
    rw [toHexAux_ne n l hn]
    by_cases h16 : n / 16 = 0
    · rw [h16, toHexAux_zero]
      exact ⟨_, _, rfl⟩
    · exact ih (n / 16) (Nat.div_lt_self (Nat.pos_of_ne_zero hn) (by norm_num)) h16 _

theorem parseHex_toHexStr (n : ℕ) : parseHex (toHexStr n) = some n := by
  by_cases hn : n = 0
  · subst hn; decide
  · rw [toHexStr, if_neg hn]
    obtain ⟨c, cs, hcons⟩ := toHexAux_cons n hn []
    rw [parseHex, if_neg (by rw [hcons]; simp)]
    rw [parseHexAux_toHexAux n hn [] 0, parseHexAux]
    norm_num

theorem toHexAux_chars :
    ∀ n (l : List Char) c, c ∈ toHexAux n l → c ∈ l ∨ ∃ d, d < 16 ∧ c = digitChar d := by
  intro n
  induction n using Nat.strong_induction_on with
  | _ n ih =>
    intro l c hc
    by_cases hn : n = 0
    · rw [hn, toHexAux_zero] at hc; exact Or.inl hc
    · rw [toHexAux_ne n l hn] at hc
      rcases ih (n / 16) (Nat.div_lt_self (Nat.pos_of_ne_zero hn) (by norm_num)) _ c hc with h | h
      · rcases List.mem_cons.mp h with h' | h'
        · exact Or.inr ⟨n % 16, Nat.mod_lt n (by omega), h'⟩
        · exact Or.inl h'
      · exact Or.inr h

/-- `toString(16)` output never starts with `0x` (its characters are hex
digits, and `x` is not one). -/
theorem toHexStr_not0x (n : ℕ) : ¬ (toHexStr n).take 2 = ['0', 'x'] := by
  by_cases hn : n = 0
  · subst hn; decide
  · intro habs
    have hx : 'x' ∈ toHexStr n := by
      have : 'x' ∈ (toHexStr n).take 2 := by rw [habs]; simp
      exact List.mem_of_mem_take this
    rw [toHexStr, if_neg hn] at hx
    rcases toHexAux_chars n [] 'x' hx with h | ⟨d, hd, hdx⟩
    · simp at h
    · have hall : ∀ e, e < 16 → digitChar e ≠ 'x' := by decide
      exact hall d hd hdx.symm

theorem parseHexField_toHexStr (n : ℕ) : parseHexField (toHexStr n) = some n := by
  rw [parseHexField, if_neg (toHexStr_not0x n)]
  exact parseHex_toHexStr n

theorem toHexStr_ne_nil (n : ℕ) : toHexStr n ≠ [] := by
  by_cases hn : n = 0
  · subst hn; decide
  · rw [toHexStr, if_neg hn]
    obtain ⟨c, cs, hcons⟩ := toHexAux_cons n hn []
    rw [hcons]; simp

theorem parseHexField_with0x (s : List Char) : parseHexField ('0' :: 'x' :: s) = parseHex s := by
  rw [parseHexField, if_pos (by simp)]
  simp

theorem roundtrip000_pub (pk : PubKeyData) :
    deserializePublicKey000 (serializePublicKey000 pk) = some pk := by
  obtain ⟨n, g, n2⟩ := pk
  rw [serializePublicKey000, deserializePublicKey000]
  simp [parseHexField_toHexStr]

theorem roundtrip1_priv (sk : PrivPair) :
    deserializePrivateKey1 (serializePrivateKey1 sk) = some sk := by
  obtain ⟨l, m⟩ := sk
  rw [serializePrivateKey1, deserializePrivateKey1]
  simp [parseHexField_toHexStr]

theorem roundtrip1_pub (pk : PubKeyData1) (hn2 : pk.n2 ≠ some 0) :
    deserializePublicKey1 (serializePublicKey1 pk) = some pk := by
  obtain ⟨n, g, n2⟩ := pk
  rcases n2 with _ | v
  · rw [serializePublicKey1, deserializePublicKey1]
    simp [parseHexField_toHexStr]
  · have hv : v ≠ 0 := by
      intro h
      exact hn2 (by simp [h])
    rw [serializePublicKey1, deserializePublicKey1]
    simp only [if_neg hv, parseHexField_toHexStr]
    rw [if_neg (toHexStr_ne_nil v)]
    simp [parseHexField_toHexStr]

/-- C5 counterexample: part_000's `deserializePrivateKey` parses with plain
`BigInt(s)` (decimal), while `serializePrivateKey` emits hex.  For
`lambda = 16` the serialized string is `"10"`, which deserializes to
`10 ≠ 16`, so the private round trip fails. -/
theorem c5_serialization_counterexample :
    deserializePrivateKey000 (serializePrivateKey000 ⟨16, 1, 5, 7⟩) = some ⟨10, 1⟩ ∧
    ¬ ((⟨10, 1⟩ : PrivPair) = ⟨16, 1⟩) := by
  constructor
  · have h16 : toHexStr 16 = ['1', '0'] := by
      norm_num [toHexStr, toHexAux_ne, toHexAux_zero]
      decide
    have h1 : toHexStr 1 = ['1'] := by
      norm_num [toHexStr, toHexAux_ne, toHexAux_zero]
      decide
    rw [serializePrivateKey000]
    simp only [h16, h1]
    decide
  · decide

/-- C5 (amended): serialization round-trips hold for the part_000 public
key, the part_001 private key, and the part_001 public key whenever its
optional `n2` is not the (falsy) value 0; hex output never carries a `0x`
prefix and hex input is accepted with one.  (The part_000 private-key pair
is excluded: its deserializer parses decimal, see the counterexample.) -/
theorem c5_serialization_roundtrip (pk : PubKeyData) (sk : PrivPair) (pk1 : PubKeyData1)
    (hn2 : pk1.n2 ≠ some 0) (x : ℕ) :
    deserializePublicKey000 (serializePublicKey000 pk) = some pk ∧
    deserializePublicKey1 (serializePublicKey1 pk1) = some pk1 ∧
    deserializePrivateKey1 (serializePrivateKey1 sk) = some sk ∧
    ¬ (toHexStr x).take 2 = ['0', 'x'] ∧
    parseHexField ('0' :: 'x' :: toHexStr x) = some x :=
  ⟨roundtrip000_pub pk, roundtrip1_pub pk1 hn2, roundtrip1_priv sk,
    toHexStr_not0x x, by rw [parseHexField_with0x]; exact parseHex_toHexStr x⟩

/-- Witness for C5 (amended) at `pk = {35, 36, 1225}`, `sk = {12, 3}`,
`pk1 = {35, 36, n2 = 1225}` and `x = 26` (hex `"1a"`). -/
theorem c5_serialization_roundtrip_witness :
    ((⟨35, 36, some 1225⟩ : PubKeyData1).n2 ≠ some 0) ∧
    (deserializePublicKey000 (serializePublicKey000 ⟨35, 36, 1225⟩) = some ⟨35, 36, 1225⟩ ∧
      deserializePublicKey1 (serializePublicKey1 ⟨35, 36, some 1225⟩) =
        some ⟨35, 36, some 1225⟩ ∧
      deserializePrivateKey1 (serializePrivateKey1 ⟨12, 3⟩) = some ⟨12, 3⟩ ∧
      ¬ (toHexStr 26).take 2 = ['0', 'x'] ∧
      parseHexField ('0' :: 'x' :: toHexStr 26) = some 26) :=
  ⟨by simp, c5_serialization_roundtrip ⟨35, 36, 1225⟩ ⟨12, 3⟩ ⟨35, 36, some 1225⟩ (by simp) 26⟩

/-- C6 counterexample: the worker `modInv` (extended Euclid without a gcd
check) silently returns 1 on `a = 0`, `m = 5`, although `gcd(0, 5) = 5 ≠ 1`
— no "no inverse exists" failure is raised. -/
theorem c6_modular_inverse_counterexample :
    workerModInv 0 5 = some 1 ∧ Nat.gcd 0 5 ≠ 1 := by
  constructor
  · rw [workerModInv, workerModInvLoop_le 0 5 0 1 (by norm_num)]
    norm_num
  · norm_num

/-- C6 (amended): the library (egcd-based) `modInv` fails exactly when
`gcd(a, m) ≠ 1` and otherwise returns the unique inverse in `[0, m)`, for
all integers `a` and `m > 1`.  The worker's extended-Euclid variant, for
`a ≥ 1`, fails (with a division-by-zero error rather than a "no inverse
exists" one) iff `gcd(a, m) ≠ 1`, and returns a value congruent to the
inverse on success; but on `a = 0` it silently returns 1. -/
theorem c6_modular_inverse (a m : ℤ) (hm : 1 < m) :
    (Int.gcd a m ≠ 1 → libModInv a m = none) ∧
    (Int.gcd a m = 1 →
      ∃ x, libModInv a m = some x ∧ 0 ≤ x ∧ x < m ∧
        a * x ≡ 1 [ZMOD m] ∧
        ∀ y, 0 ≤ y → y < m → a * y ≡ 1 [ZMOD m] → y = x) ∧
    (∀ a' m' : ℕ, 1 ≤ a' →
      ((workerModInv a' m' = none ↔ Nat.gcd a' m' ≠ 1) ∧
        ∀ v, workerModInv a' m' = some v → (a' : ℤ) * v ≡ 1 [ZMOD (m' : ℤ)])) ∧
    (∀ m' : ℕ, workerModInv 0 m' = some 1) := by
  obtain ⟨hnone, hsome⟩ := libModInv_correct a m hm
  refine ⟨fun hg => hnone.mpr hg, fun hg => ?_, fun a' m' ha' => ?_, fun m' => ?_⟩
  · cases hlib : libModInv a m with
    | none => exact absurd (hnone.mp hlib) (by simp [hg])
    | some v =>
      obtain ⟨h0, h1, h2⟩ := hsome v hlib
      refine ⟨v, rfl, h0, h1, h2, ?_⟩
      intro y hy0 hy1 hy2
      have hcong : y ≡ v [ZMOD m] := by
        calc y = y * 1 := by ring
          _ ≡ y * (a * v) [ZMOD m] := h2.symm.mul_left y
          _ = (a * y) * v := by ring
          _ ≡ 1 * v [ZMOD m] := hy2.mul_right v
          _ = v := by ring
      have heq : y % m = v % m := hcong
      rw [Int.emod_eq_of_lt hy0 hy1, Int.emod_eq_of_lt h0 h1] at heq
      exact heq
  · obtain ⟨hiff, hval⟩ := workerModInv_correct a' m' ha'
    constructor
    · constructor
      · intro hnone' hgcd
        rw [← hiff] at hgcd
        rw [hnone'] at hgcd
        simp at hgcd
      · intro hgcd
        cases hcase : workerModInv a' m' with
        | none => rfl
        | some w =>
          have : Nat.gcd a' m' = 1 := by rw [← hiff, hcase]; rfl
          exact absurd this hgcd
    · exact hval
  · rw [workerModInv, workerModInvLoop_le 0 m' 0 1 (by norm_num)]
    norm_num

/-- Witness for C6 (amended) at `a = 3`, `m = 5` (inverse 2). -/
theorem c6_modular_inverse_witness :
    ((1 : ℤ) < 5) ∧
    ((Int.gcd (3 : ℤ) 5 ≠ 1 → libModInv 3 5 = none) ∧
      (Int.gcd (3 : ℤ) 5 = 1 →
        ∃ x, libModInv 3 5 = some x ∧ 0 ≤ x ∧ x < 5 ∧
          (3 : ℤ) * x ≡ 1 [ZMOD (5 : ℤ)] ∧
          ∀ y, 0 ≤ y → y < 5 → (3 : ℤ) * y ≡ 1 [ZMOD (5 : ℤ)] → y = x) ∧
      (∀ a' m' : ℕ, 1 ≤ a' →
        ((workerModInv a' m' = none ↔ Nat.gcd a' m' ≠ 1) ∧
          ∀ v, workerModInv a' m' = some v → (a' : ℤ) * v ≡ 1 [ZMOD (m' : ℤ)])) ∧
      (∀ m' : ℕ, workerModInv 0 m' = some 1)) :=
  ⟨by norm_num, c6_modular_inverse 3 5 (by norm_num)⟩

/-- C9: the serialized private-key form carries only `lambda` and `mu`
(the `PrivSer` record has no other fields); two private keys that agree on
`lambda` and `mu` but differ in `p` and `q` serialize identically. -/
theorem c9_private_key_serialization (sk1 sk2 : PrivKeyData)
    (hl : sk1.lambda = sk2.lambda) (hm : sk1.mu = sk2.mu) :
    serializePrivateKey000 sk1 = serializePrivateKey000 sk2 := by
  rw [serializePrivateKey000, serializePrivateKey000, hl, hm]

/-- Witness for C9: `{λ=12, μ=3, p=5, q=7}` and `{λ=12, μ=3, p=11, q=13}`
serialize identically. -/
theorem c9_private_key_serialization_witness :
    (⟨12, 3, 5, 7⟩ : PrivKeyData).lambda = (⟨12, 3, 11, 13⟩ : PrivKeyData).lambda ∧
    (⟨12, 3, 5, 7⟩ : PrivKeyData).mu = (⟨12, 3, 11, 13⟩ : PrivKeyData).mu ∧
    serializePrivateKey000 ⟨12, 3, 5, 7⟩ = serializePrivateKey000 ⟨12, 3, 11, 13⟩ :=
  ⟨rfl, rfl, c9_private_key_serialization ⟨12, 3, 5, 7⟩ ⟨12, 3, 11, 13⟩ rfl rfl⟩

/-- Worker `randomBigInt` (lines 4-18): draws `ceil(bits/8)` random bytes
(`raw` is their big-endian value) and ORs in the top bit
`1n << (bits - 1)`.  The high bits of the random bytes beyond position
`bits - 1` are NOT masked off. -/
def randomBigInt (bits raw : ℕ) : ℕ := raw ||| 2 ^ (bits - 1)

/-- The `while (!(d & 1)) { d >>= 1; r++ }` loop of `isProbPrime`
(lines 86-92), accumulating `r`.  (The source loop would never terminate on
`d = 0`; callers pass `d = n - 1` with odd `n ≥ 5`.) -/
def decompose (r d : ℕ) : ℕ × ℕ :=
  if d % 2 = 0 ∧ d ≠ 0 then decompose (r + 1) (d / 2) else (r, d)
termination_by d
decreasing_by exact Nat.div_lt_self (by omega) one_lt_two

theorem decompose_step (r d : ℕ) (h : d % 2 = 0 ∧ d ≠ 0) :
    decompose r d = decompose (r + 1) (d / 2) := by
  rw [decompose]; simp [h]

theorem decompose_done (r d : ℕ) (h : ¬ (d % 2 = 0 ∧ d ≠ 0)) :
    decompose r d = (r, d) := by
  rw [decompose]; simp only [if_neg h]

/-- Inner squaring loop of one Miller-Rabin round (lines 101-104): up to
`j` squarings of `x`, passing as soon as `n - 1` is reached. -/
def mrInner (n x : ℕ) : ℕ → Bool
  | 0 => false
  | j + 1 =>
    let x2 := workerModPow x 2 n
    if x2 = n - 1 then true else mrInner n x2 j

/-- One Miller-Rabin round (lines 94-107) with witness `a`:
`x = a^d mod n` passes directly if `x ∈ {1, n-1}`, else via the inner loop
(`r - 1` squarings). -/
def mrRound (n d r a : ℕ) : Bool :=
  let x := workerModPow a d n
  if x = 1 ∨ x = n - 1 then true
  else mrInner n x (r - 1)

/-- Worker `isProbPrime` (lines 81-110).  The `k = 16` random witnesses
drawn via `randomBetween(2n, n - 2n)` become the explicit list `ws`. -/
def isProbPrime (n : ℕ) (ws : List ℕ) : Bool :=
  if n < 2 then false
  else if n = 2 ∨ n = 3 then true
  else if n % 2 = 0 then false
  else
    let rd := decompose 0 (n - 1)
    ws.all (fun a => mrRound n rd.2 rd.1 a)

/-- Worker `generatePrime` (lines 113-119) over an explicit entropy stream:
each attempt consumes one byte-draw `raw` and one witness list, makes the
candidate odd with `p += 1` if even, and returns the first candidate that
passes `isProbPrime`. -/
def generatePrime (bits : ℕ) : List (ℕ × List ℕ) → Option ℕ
  | [] => none
  | (raw, ws) :: rest =>
    let p0 := randomBigInt bits raw
    let p := if p0 % 2 = 0 then p0 + 1 else p0
    if isProbPrime p ws then some p else generatePrime bits rest

theorem randomBigInt_lower (b raw : ℕ) : 2 ^ (b - 1) ≤ randomBigInt b raw := by
  apply Nat.testBit_implies_ge
  rw [randomBigInt, Nat.testBit_or, Nat.testBit_two_pow_self]
  simp

theorem randomBigInt_upper (b raw : ℕ) (hb : 1 ≤ b) (hraw : raw < 2 ^ b) :
    randomBigInt b raw < 2 ^ b := by
  rw [randomBigInt]
  exact Nat.or_lt_two_pow hraw (Nat.pow_lt_pow_right one_lt_two (by omega))

/-- A successful `generatePrime` run returns the (odd-adjusted) candidate
built from some stream entry. -/
theorem generatePrime_some (bits : ℕ) (stream : List (ℕ × List ℕ)) (p : ℕ)
    (h : generatePrime bits stream = some p) :
    ∃ e ∈ stream,
      p = (if randomBigInt bits e.1 % 2 = 0
        then randomBigInt bits e.1 + 1 else randomBigInt bits e.1) := by
  induction stream with
  | nil => exact absurd h (by simp [generatePrime])
  | cons hd tl ih =>
    obtain ⟨raw, ws⟩ := hd
    rw [generatePrime] at h
    by_cases hpass : isProbPrime
        (if randomBigInt bits raw % 2 = 0
          then randomBigInt bits raw + 1 else randomBigInt bits raw) ws = true
    · rw [if_pos hpass] at h
      injection h with h'
      exact ⟨(raw, ws), by simp, h'.symm⟩
    · rw [if_neg hpass] at h
      obtain ⟨e, hmem, he⟩ := ih h
      exact ⟨e, by simp [hmem], he⟩

/-- The public modulus of any key produced by the worker key-generation
body is the product of the supplied pair (no primality needed). -/
theorem generatePaillierCore_pub_n (p q : ℕ) (kp : KeyPair)
    (h : generatePaillierCore p q = some kp) : kp.pub.n = p * q := by
  rw [generatePaillierCore] at h
  cases hw : workerModInv
      (L (workerModPow (p * q + 1) (lcmW (p - 1) (q - 1)) (p * q * (p * q))) (p * q))
      (p * q) with
  | none => rw [hw] at h; exact absurd h (by simp)
  | some mu => rw [hw] at h; injection h with h'; rw [← h']

/-- C4 counterexample: `generatePrime(3)` can return 127 (a 7-bit prime):
the random byte `0x7f` is not masked down to 3 bits, `127 | 100₂ = 127` is
odd and passes all 16 Miller-Rabin rounds (witnesses 2), so the returned
bit length is 7, not 3. -/
theorem c4_bit_length_counterexample :
    generatePrime 3 [(127, [2, 2, 2, 2, 2, 2, 2, 2, 2, 2, 2, 2, 2, 2, 2, 2])] = some 127 ∧
    bitLength 127 ≠ 3 := by
  constructor
  · have hrand : randomBigInt 3 127 = 127 := by rw [randomBigInt]; decide
    have hd : decompose 0 126 = (1, 63) := by
      rw [decompose_step 0 126 (by norm_num), decompose_done 1 63 (by norm_num)]
    have hpow : workerModPow 2 63 127 = 1 := by
      norm_num [workerModPow, modPowLoop_ne, modPowLoop_zero]
    rw [generatePrime]
    norm_num [hrand, isProbPrime, hd, mrRound, hpow]
  · have h7 : bitLength 127 = 7 := bitLength_eq 127 7 (by norm_num) (by norm_num) (by norm_num)
    omega

/-- C4 (amended): `generatePrime(b)` always returns a value of bit length
at least `b`, and of exactly `b` bits whenever `b` is a multiple of 8 (the
byte draw is then exactly `b` bits wide, so no unmasked high bits exist);
`generatePaillier(bits)` always returns `n` of exactly `bits` bits (the
retry loop enforces it). -/
theorem c4_bit_length (b : ℕ) (hb : 2 ≤ b) (stream : List (ℕ × List ℕ)) (p : ℕ)
    (hbytes : ∀ e ∈ stream, e.1 < 2 ^ (8 * ((b + 7) / 8)))
    (hgen : generatePrime b stream = some p) :
    (b ≤ bitLength p ∧ (8 ∣ b → bitLength p = b)) ∧
    (∀ bits pairs kp, generatePaillier bits pairs = some kp → bitLength kp.pub.n = bits) := by
  constructor
  · obtain ⟨e, hmem, hp⟩ := generatePrime_some b stream p hgen
    have hlow : 2 ^ (b - 1) ≤ randomBigInt b e.1 := randomBigInt_lower b e.1
    have hple : randomBigInt b e.1 ≤ p := by rw [hp]; split <;> omega
    have hblow : b ≤ bitLength p := by
      rw [bitLength]
      have := Nat.lt_size.mpr (le_trans hlow hple)
      omega
    refine ⟨hblow, fun hdvd => ?_⟩
    have hbytes' := hbytes e hmem
    have h8 : 8 * ((b + 7) / 8) = b := by omega
    rw [h8] at hbytes'
    have hup : randomBigInt b e.1 < 2 ^ b := randomBigInt_upper b e.1 (by omega) hbytes'
    have heven : (2 : ℕ) ^ b % 2 = 0 := by
      have hsplit : (2 : ℕ) ^ b = 2 * 2 ^ (b - 1) := by
        rw [← pow_succ']
        congr 1
        omega
      omega
    have hpup : p < 2 ^ b := by
      rw [hp]
      by_cases hpar : randomBigInt b e.1 % 2 = 0
      · rw [if_pos hpar]; omega
      · rw [if_neg hpar]; exact hup
    rw [bitLength]
    have h1 : Nat.size p ≤ b := Nat.size_le.mpr hpup
    have h2 := Nat.lt_size.mpr (le_trans hlow hple)
    omega
  · intro bits pairs kp hkp
    obtain ⟨⟨pp, qq⟩, hmempq, hne, hbits, hcore⟩ := generatePaillier_some bits pairs kp hkp
    rw [generatePaillierCore_pub_n pp qq kp hcore]
    exact hbits

/-- Witness for C4 (amended): `b = 8` (a multiple of 8), byte draw 210,
candidate `210 | 128 = 210`, made odd to the prime 211; the returned value
has bit length exactly 8. -/
theorem c4_bit_length_witness :
    (2 ≤ 8) ∧
    (∀ e ∈ [((210 : ℕ), [2, 2, 2, 2, 2, 2, 2, 2, 2, 2, 2, 2, 2, 2, 2, 2])],
      e.1 < 2 ^ (8 * ((8 + 7) / 8))) ∧
    generatePrime 8 [(210, [2, 2, 2, 2, 2, 2, 2, 2, 2, 2, 2, 2, 2, 2, 2, 2])] = some 211 ∧
    ((8 ≤ bitLength 211 ∧ (8 ∣ 8 → bitLength 211 = 8)) ∧
      (∀ bits pairs kp, generatePaillier bits pairs = some kp → bitLength kp.pub.n = bits)) := by
  have hrand : randomBigInt 8 210 = 210 := by rw [randomBigInt]; decide
  have hd : decompose 0 210 = (1, 105) := by
    rw [decompose_step 0 210 (by norm_num), decompose_done 1 105 (by norm_num)]
  have hpow : workerModPow 2 105 211 = 210 := by
    norm_num [workerModPow, modPowLoop_ne, modPowLoop_zero]
  have hgen : generatePrime 8 [(210, [2, 2, 2, 2, 2, 2, 2, 2, 2, 2, 2, 2, 2, 2, 2, 2])]
      = some 211 := by
    rw [generatePrime]
    norm_num [hrand, isProbPrime, hd, mrRound, hpow]
  have hbytes : ∀ e ∈ [((210 : ℕ), [2, 2, 2, 2, 2, 2, 2, 2, 2, 2, 2, 2, 2, 2, 2, 2])],
      e.1 < 2 ^ (8 * ((8 + 7) / 8)) := by
    intro e he
    rw [List.mem_singleton] at he
    subst he
    norm_num
  exact ⟨by norm_num, hbytes, hgen,
    c4_bit_length 8 (by norm_num) _ 211 hbytes hgen⟩

end Paillier
